import Mathlib

/-!
# Verification of the Hybrid Retrieval Engine core

A shallow embedding of the core of the hybrid retrieval system
(`graph/graph_search.py`, `search/vector_search.py`, `search/hybrid_search.py`)
together with proofs of the specified properties.

Modelling conventions:
* Python floats appearing in the graph layer (edge weights, closeness scores)
  are modelled as rationals `ℚ`; the vector-search layer (cosine similarity,
  norms) is modelled over the reals `ℝ` since it involves square roots.
* Python dicts are modelled as association lists preserving insertion order
  (Python dicts iterate in insertion order).
* `collections.deque` queue operations are modelled by list operations
  (`popleft` = head, `append` = concatenation on the right); the loop is run
  on explicit fuel, with every safety property proved for *all* fuel values.
* Python's stable `list.sort` and `np.argsort` are modelled with
  `List.insertionSort`, which is stable.
-/

namespace HybridRetrieval

/-! ## Graph layer: `graph/graph_search.py` -/

/-- One record of `edges.json`: `{"source": .., "target": .., "type": ..,
"weight": ..}`, with the defaults `"related_to"` / `1.0` already applied
(the source applies them with `e.get("type", "related_to")` and
`e.get("weight", 1.0)` while building `ADJ`). -/
structure Edge where
  source : Nat
  target : Nat
  type : String
  weight : ℚ
deriving DecidableEq, Repr

/-- One adjacency record `{"target": .., "type": .., "weight": ..}` as stored
in the lists of `ADJ`. -/
structure AdjEntry where
  target : Nat
  type : String
  weight : ℚ
deriving DecidableEq, Repr

/-- The global `ADJ` is a Python dict `node_id -> list of {target, type, weight}`;
modelled as an association list in key-insertion order. -/
abbrev Adj := List (Nat × List AdjEntry)

/-- Dict lookup with default `[]`: `ADJ.get(node, [])`. -/
def adjGet (adj : Adj) (k : Nat) : List AdjEntry :=
  match adj.find? (fun p => p.1 == k) with
  | some p => p.2
  | none => []

/-- Dict membership: `node in ADJ`. -/
def adjMem (adj : Adj) (k : Nat) : Bool :=
  adj.any (fun p => p.1 == k)

/-- Models `ADJ.setdefault(k, []).append(v)`: append `v` to the list stored at `k`,
creating the key at the end of the dict if absent. -/
def adjInsert (adj : Adj) (k : Nat) (v : AdjEntry) : Adj :=
  match adj with
  | [] => [(k, [v])]
  | p :: rest => if p.1 = k then (k, p.2 ++ [v]) :: rest else p :: adjInsert rest k v

/-- The `ADJ` build loop of `graph_search.py`: for each edge append the
forward entry to the source's list and the backward entry to the target's
list (undirected view). -/
def buildAdj (edges : List Edge) : Adj :=
  edges.foldl
    (fun adj e =>
      adjInsert (adjInsert adj e.source ⟨e.target, e.type, e.weight⟩)
        e.target ⟨e.source, e.type, e.weight⟩)
    []

/-- A queue element `(node, depth, edge_type, weight)` of `bfs`;
the root is seeded as `(start_id, 0, None, None)`. -/
structure QItem where
  node : Nat
  depth : Nat
  etype : Option String
  wt : Option ℚ
deriving DecidableEq, Repr

/-- A result record `{"id": .., "hop": .., "edge": .., "weight": ..}` of
`bfs` (the `edge`/`weight` fields carry the queue values, which are `None`
only for the never-emitted root). -/
structure BfsEntry where
  id : Nat
  hop : Nat
  edge : Option String
  wt : Option ℚ
deriving DecidableEq, Repr

/-- The neighbor-filter test of `bfs`: the edge is *kept* unless
`allowed_types` is truthy (present and non-empty) and the type is not in it.
An empty-but-present collection is falsy in Python and therefore allows all
types. -/
def typeAllowed (allowed : Option (List String)) (t : String) : Bool :=
  match allowed with
  | none => true
  | some l => l.isEmpty || l.contains t

/-- The neighbor-expansion loop of `bfs`: walk the adjacency list of the
dequeued node in stored order; skip filtered types and already-visited
targets; otherwise mark visited and produce the queue item
`(nxt, depth + 1, e["type"], e["weight"])`.  Returns the produced queue
items (in order) and the grown visited set. -/
def expandFold (allowed : Option (List String)) (depth : Nat) :
    List AdjEntry → List Nat → List QItem × List Nat
  | [], visited => ([], visited)
  | e :: rest, visited =>
    if typeAllowed allowed e.type then
      if visited.contains e.target then
        expandFold allowed depth rest visited
      else
        let p := expandFold allowed depth rest (e.target :: visited)
        (⟨e.target, depth + 1, some e.type, some e.weight⟩ :: p.1, p.2)
    else
      expandFold allowed depth rest visited

/-- The `while queue:` loop of `bfs`, run on explicit fuel.  Each iteration
pops the front item, emits it when `hop > 0`, stops expanding when
`depth == max_depth`, and otherwise appends the expansion of its neighbors to
the queue. -/
def bfsLoop (adj : Adj) (allowed : Option (List String)) (maxd : Nat) :
    Nat → List QItem → List Nat → List BfsEntry → List BfsEntry
  | 0, _, _, results => results
  | _ + 1, [], _, results => results
  | fuel + 1, q :: rest, visited, results =>
    let results' :=
      if 0 < q.depth then results ++ [⟨q.node, q.depth, q.etype, q.wt⟩] else results
    if q.depth = maxd then
      bfsLoop adj allowed maxd fuel rest visited results'
    else
      let p := expandFold allowed q.depth (adjGet adj q.node) visited
      bfsLoop adj allowed maxd fuel (rest ++ p.1) p.2 results'

/-- Enough fuel to drain the queue: every enqueued node is distinct (the
visited check happens at enqueue time), so the number of dequeues is at most
one plus the total number of adjacency records. -/
def bfsFuel (adj : Adj) : Nat :=
  1 + (adj.map (fun p => p.2.length)).sum

/-- Models `bfs(start_id, max_depth, allowed_types)` of `graph_search.py`:
soft-fails to `[]` when `start_id` is not a key of `ADJ`; otherwise runs the
queue seeded with `(start_id, 0, None, None)` and the visited set
`{start_id}`. -/
def bfs (adj : Adj) (start_id : Nat) (maxDepth : Nat)
    (allowed : Option (List String)) : List BfsEntry :=
  if adjMem adj start_id then
    bfsLoop adj allowed maxDepth (bfsFuel adj) [⟨start_id, 0, none, none⟩] [start_id] []
  else []

/-- Models `graph_closeness(node_id, bfs_results)`: a linear scan for the first entry
with a matching id; on a hit return `(1 / (1 + hop)) * weight` (with weight
defaulting to `1.0` via `r.get("weight", 1.0)`), otherwise `0.0`. -/
def graph_closeness (node_id : Nat) : List BfsEntry → ℚ
  | [] => 0
  | r :: rest =>
    if r.id = node_id then (1 / (1 + (r.hop : ℚ))) * r.wt.getD 1
    else graph_closeness node_id rest

/-! Sanity check on the worked example of the specification. -/

def exampleEdges : List Edge :=
  [⟨1, 2, "related_to", 1⟩, ⟨2, 3, "related_to", 1/2⟩]

example :
    bfs (buildAdj exampleEdges) 1 2 none =
      [⟨2, 1, some "related_to", some 1⟩, ⟨3, 2, some "related_to", some (1/2)⟩] := by
  rfl

example : graph_closeness 3 (bfs (buildAdj exampleEdges) 1 2 none) = 1/6 := by
  show (1 / (1 + ((2 : Nat) : ℚ))) * (Option.getD (some ((1 : ℚ)/2)) 1) = 1/6
  norm_num

/-! ### Basic lemmas about neighbor expansion -/

theorem expandFold_mem {allowed : Option (List String)} {d : Nat} :
    ∀ {entries : List AdjEntry} {visited : List Nat} {it : QItem},
      it ∈ (expandFold allowed d entries visited).1 →
      ∃ e ∈ entries, typeAllowed allowed e.type = true ∧
        it = ⟨e.target, d + 1, some e.type, some e.weight⟩ := by
  intro entries
  induction entries with
  | nil => intro visited it h; simp [expandFold] at h
  | cons e rest ih =>
    intro visited it h
    by_cases hall : typeAllowed allowed e.type
    · by_cases hvis : visited.contains e.target
      · simp only [expandFold, hall, hvis, if_true, if_false] at h
        obtain ⟨e', he', h1, h2⟩ := ih h
        exact ⟨e', List.mem_cons_of_mem _ he', h1, h2⟩
      · simp only [expandFold, hall, hvis, if_true, if_false, Bool.false_eq_true,
          List.mem_cons] at h
        rcases h with h | h
        · exact ⟨e, List.mem_cons_self _ _, hall, h⟩
        · obtain ⟨e', he', h1, h2⟩ := ih h
          exact ⟨e', List.mem_cons_of_mem _ he', h1, h2⟩
    · simp only [expandFold, hall, Bool.false_eq_true, if_false] at h
      obtain ⟨e', he', h1, h2⟩ := ih h
      exact ⟨e', List.mem_cons_of_mem _ he', h1, h2⟩

/-- Generic safety invariant for the BFS loop: a predicate on queue items
that is preserved by neighbor expansion holds for every emitted entry, and
every emitted entry has a positive hop (the root is never emitted).  Proved
for every fuel value. -/
theorem bfsLoop_emitted (adj : Adj) (allowed : Option (List String)) (maxd : Nat)
    (Pq : QItem → Prop)
    (hstep : ∀ q : QItem, Pq q → q.depth ≠ maxd → ∀ e ∈ adjGet adj q.node,
      typeAllowed allowed e.type = true →
      Pq ⟨e.target, q.depth + 1, some e.type, some e.weight⟩) :
    ∀ (fuel : Nat) (Q : List QItem) (V : List Nat) (R : List BfsEntry),
      (∀ q ∈ Q, Pq q) →
      (∀ r ∈ R, 0 < r.hop ∧ Pq ⟨r.id, r.hop, r.edge, r.wt⟩) →
      ∀ e ∈ bfsLoop adj allowed maxd fuel Q V R,
        0 < e.hop ∧ Pq ⟨e.id, e.hop, e.edge, e.wt⟩ := by
  intro fuel
  induction fuel with
  | zero =>
    intro Q V R _ hR e he
    simp only [bfsLoop] at he
    exact hR e he
  | succ n ih =>
    intro Q V R hQ hR e he
    match Q with
    | [] =>
      simp only [bfsLoop] at he
      exact hR e he
    | q :: rest =>
      have hresults' : ∀ r ∈ (if 0 < q.depth then R ++ [⟨q.node, q.depth, q.etype, q.wt⟩]
          else R), 0 < r.hop ∧ Pq ⟨r.id, r.hop, r.edge, r.wt⟩ := by
        split
        · intro r hr
          rcases List.mem_append.1 hr with hr | hr
          · exact hR r hr
          · rcases List.mem_singleton.1 hr with rfl
            exact ⟨by assumption, hQ q (List.mem_cons_self _ _)⟩
        · exact hR
      by_cases hd : q.depth = maxd
      · simp only [bfsLoop, hd, if_true] at he
        rw [hd] at hresults'
        exact ih rest V _ (fun p hp => hQ p (List.mem_cons_of_mem _ hp)) hresults' e he
      · simp only [bfsLoop, hd, if_false] at he
        refine ih _ _ _ ?_ hresults' e he
        intro p hp
        rcases List.mem_append.1 hp with hp | hp
        · exact hQ p (List.mem_cons_of_mem _ hp)
        · obtain ⟨e', he', hall, rfl⟩ := expandFold_mem hp
          exact hstep q (hQ q (List.mem_cons_self _ _)) hd e' he' hall

/-- Specialization of `bfsLoop_emitted` to a full `bfs` call. -/
theorem bfs_emitted (adj : Adj) (allowed : Option (List String)) (s maxd : Nat)
    (Pq : QItem → Prop)
    (hroot : Pq ⟨s, 0, none, none⟩)
    (hstep : ∀ q : QItem, Pq q → q.depth ≠ maxd → ∀ e ∈ adjGet adj q.node,
      typeAllowed allowed e.type = true →
      Pq ⟨e.target, q.depth + 1, some e.type, some e.weight⟩) :
    ∀ e ∈ bfs adj s maxd allowed, 0 < e.hop ∧ Pq ⟨e.id, e.hop, e.edge, e.wt⟩ := by
  intro e he
  unfold bfs at he
  split at he
  · refine bfsLoop_emitted adj allowed maxd Pq hstep _ _ _ _ ?_ ?_ e he
    · intro p hp
      rcases List.mem_singleton.1 hp with rfl
      exact hroot
    · intro r hr; simp at hr
  · simp at he

/-! ### Claim C2: depth bound -/

/-- A three-edge path `1 - 2 - 3 - 4` used to exhibit the hard depth cutoff:
with `max_depth = 2` the node at hop 2 is emitted but its neighbor at hop 3
is not. -/
def pathEdges : List Edge :=
  [⟨1, 2, "related_to", 1⟩, ⟨2, 3, "related_to", 1⟩, ⟨3, 4, "related_to", 1⟩]

/-- Claim **C2**: for every graph, start node, type filter and `max_depth = k`,
every entry returned by `bfs` has `hop ≤ k`; and on the path graph
`1-2-3-4` with `k = 2` the node discovered at exactly hop 2 is included in
the output while its neighbor (hop 3) is not expanded. -/
theorem C2_bfs_depth_bound :
    (∀ (adj : Adj) (s k : Nat) (allowed : Option (List String)),
      ∀ e ∈ bfs adj s k allowed, e.hop ≤ k)
    ∧ bfs (buildAdj pathEdges) 1 2 none =
        [⟨2, 1, some "related_to", some 1⟩, ⟨3, 2, some "related_to", some 1⟩] := by
  constructor
  · intro adj s k allowed e he
    have h := bfs_emitted adj allowed s k (fun q => q.depth ≤ k)
      (Nat.zero_le k)
      (fun q hq hne e' _ _ => Nat.succ_le_of_lt (Nat.lt_of_le_of_ne hq hne))
      e he
    exact h.2
  · rfl

/-- Witness for C2 at a concrete input. -/
theorem C2_bfs_depth_bound_witness :
    (⟨3, 2, some "related_to", some 1⟩ : BfsEntry).hop ≤ 2 :=
  C2_bfs_depth_bound.1 (buildAdj pathEdges) 1 2 none _
    (by
      rw [C2_bfs_depth_bound.2]
      exact List.mem_cons_of_mem _ (List.mem_cons_self _ _))

/-! ### Claim C3: type filter soundness and the empty-filter collapse -/

theorem expandFold_empty_filter (d : Nat) :
    ∀ (entries : List AdjEntry) (visited : List Nat),
      expandFold (some []) d entries visited = expandFold none d entries visited := by
  intro entries
  induction entries with
  | nil => intro visited; rfl
  | cons e rest ih =>
    intro visited
    show (if typeAllowed (some []) e.type then _ else _) = _
    simp only [typeAllowed, List.isEmpty_nil, Bool.true_or, if_true]
    by_cases hvis : visited.contains e.target
    · simp only [expandFold, hvis, if_true, typeAllowed, List.isEmpty_nil, Bool.true_or]
      exact ih visited
    · simp only [expandFold, hvis, if_false, typeAllowed, List.isEmpty_nil, Bool.true_or,
        if_true, Bool.false_eq_true]
      rw [ih (e.target :: visited)]

theorem bfsLoop_empty_filter (adj : Adj) (maxd : Nat) :
    ∀ (fuel : Nat) (Q : List QItem) (V : List Nat) (R : List BfsEntry),
      bfsLoop adj (some []) maxd fuel Q V R = bfsLoop adj none maxd fuel Q V R := by
  intro fuel
  induction fuel with
  | zero => intro Q V R; rfl
  | succ n ih =>
    intro Q V R
    match Q with
    | [] => rfl
    | q :: rest =>
      by_cases hd : q.depth = maxd
      · simp only [bfsLoop, hd, if_true]
        exact ih _ _ _
      · simp only [bfsLoop, hd, if_false]
        rw [expandFold_empty_filter]
        exact ih _ _ _

/-- Claim **C3**: with a non-empty `allowed_types` filter every emitted entry's
edge type is a member of the filter, and an empty-but-present filter yields
exactly the same traversal as an absent filter (allow all). -/
theorem C3_bfs_type_filter (ts : List String) (hts : ts ≠ []) :
    (∀ (adj : Adj) (s k : Nat), ∀ e ∈ bfs adj s k (some ts),
      ∃ t ∈ ts, e.edge = some t)
    ∧ (∀ (adj : Adj) (s k : Nat), bfs adj s k (some []) = bfs adj s k none) := by
  constructor
  · intro adj s k e he
    have h := bfs_emitted adj (some ts) s k
      (fun q => 0 < q.depth → ∃ t ∈ ts, q.etype = some t)
      (by intro h0; exact absurd h0 (by simp))
      (by
        intro q _ _ e' _ hall _
        refine ⟨e'.type, ?_, rfl⟩
        simp only [typeAllowed, Bool.or_eq_true, List.isEmpty_eq_true] at hall
        rcases hall with hall | hall
        · exact absurd hall hts
        · simpa using hall)
      e he
    exact h.2 h.1
  · intro adj s k
    unfold bfs
    rw [bfsLoop_empty_filter]

/-- Witness for C3 at a concrete input. -/
theorem C3_bfs_type_filter_witness :
    (∃ t ∈ ["evolves_into"],
      (⟨2, 1, some "evolves_into", some 1⟩ : BfsEntry).edge = some t)
    ∧ bfs (buildAdj pathEdges) 1 2 (some []) = bfs (buildAdj pathEdges) 1 2 none := by
  have h := C3_bfs_type_filter ["evolves_into"] (by simp)
  refine ⟨?_, h.2 (buildAdj pathEdges) 1 2⟩
  exact h.1 (buildAdj [⟨1, 2, "evolves_into", 1⟩, ⟨1, 3, "related_to", 1⟩]) 1 2
    ⟨2, 1, some "evolves_into", some 1⟩ (List.mem_cons_self _ _)

/-! ### Claim C4: adjacency symmetry and insertion order -/

theorem adjGet_adjInsert (adj : Adj) (k : Nat) (v : AdjEntry) (a : Nat) :
    adjGet (adjInsert adj k v) a = adjGet adj a ++ (if k = a then [v] else []) := by
  induction adj with
  | nil =>
    by_cases hka : k = a
    · subst hka; simp [adjInsert, adjGet]
    · simp [adjInsert, adjGet, List.find?, hka, Ne.symm hka,
        show (k == a) = false by simpa using hka]
  | cons p rest ih =>
    by_cases hpk : p.1 = k
    · by_cases hka : k = a
      · subst hka; subst hpk
        simp [adjInsert, adjGet, List.find?]
      · have hpa : ¬p.1 = a := by rw [hpk]; exact hka
        simp [adjInsert, adjGet, List.find?, hpk, hka,
          show (p.1 == a) = false by simpa using hpa,
          show ((k : Nat) == a) = false by simpa using hka]
    · by_cases hpa : p.1 = a
      · have hka : ¬k = a := by rw [← hpa]; exact fun h => hpk h.symm
        simp [adjInsert, adjGet, List.find?, hpk, hka,
          show (p.1 == a) = true by simpa using hpa]
      · simp only [adjInsert, hpk, if_false]
        have h1 : adjGet (p :: adjInsert rest k v) a = adjGet (adjInsert rest k v) a := by
          simp [adjGet, List.find?, show (p.1 == a) = false by simpa using hpa]
        have h2 : adjGet (p :: rest) a = adjGet rest a := by
          simp [adjGet, List.find?, show (p.1 == a) = false by simpa using hpa]
        rw [h1, h2, ih]

/-- The specification's description of the built adjacency, written from the
spec's words (§4.1 Build): the neighbor list of `a` consists, in input edge
order, of the forward entry of every edge leaving `a` and the backward entry
of every edge entering `a`. -/
def incidentEntries (edges : List Edge) (a : Nat) : List AdjEntry :=
  (edges.map (fun e =>
    (if e.source = a then [(⟨e.target, e.type, e.weight⟩ : AdjEntry)] else []) ++
    (if e.target = a then [(⟨e.source, e.type, e.weight⟩ : AdjEntry)] else []))).flatten

theorem adjGet_buildAdj_aux (a : Nat) :
    ∀ (edges : List Edge) (acc : Adj),
      adjGet (edges.foldl (fun adj e =>
        adjInsert (adjInsert adj e.source ⟨e.target, e.type, e.weight⟩)
          e.target ⟨e.source, e.type, e.weight⟩) acc) a =
      adjGet acc a ++ incidentEntries edges a := by
  intro edges
  induction edges with
  | nil => intro acc; simp [incidentEntries]
  | cons e rest ih =>
    intro acc
    rw [List.foldl_cons, ih, adjGet_adjInsert, adjGet_adjInsert]
    simp [incidentEntries]

theorem adjGet_buildAdj (edges : List Edge) (a : Nat) :
    adjGet (buildAdj edges) a = incidentEntries edges a := by
  have h := adjGet_buildAdj_aux a edges []
  simpa [buildAdj, adjGet] using h

/-- Claim **C4**: the built adjacency is symmetric — every input edge contributes
a forward entry in its source's neighbor list and a backward entry in its
target's neighbor list, with identical type and weight — and each node's
neighbor list is exactly its incident entries in input edge order. -/
theorem C4_adjacency_symmetry :
    (∀ (edges : List Edge), ∀ e ∈ edges,
      (⟨e.target, e.type, e.weight⟩ : AdjEntry) ∈ adjGet (buildAdj edges) e.source ∧
      (⟨e.source, e.type, e.weight⟩ : AdjEntry) ∈ adjGet (buildAdj edges) e.target)
    ∧ (∀ (edges : List Edge) (a : Nat),
      adjGet (buildAdj edges) a = incidentEntries edges a) := by
  refine ⟨?_, adjGet_buildAdj⟩
  intro edges e he
  rw [adjGet_buildAdj, adjGet_buildAdj]
  constructor
  · simp only [incidentEntries, List.mem_flatten, List.mem_map]
    exact ⟨_, ⟨e, he, rfl⟩, by simp⟩
  · simp only [incidentEntries, List.mem_flatten, List.mem_map]
    exact ⟨_, ⟨e, he, rfl⟩, by simp⟩

/-- Witness for C4 at a concrete input. -/
theorem C4_adjacency_symmetry_witness :
    (⟨2, "related_to", 1⟩ : AdjEntry) ∈ adjGet (buildAdj exampleEdges) 1 ∧
    (⟨1, "related_to", 1⟩ : AdjEntry) ∈ adjGet (buildAdj exampleEdges) 2 :=
  C4_adjacency_symmetry.1 exampleEdges ⟨1, 2, "related_to", 1⟩ (List.mem_cons_self _ _)

/-! ### Claim C5: closeness scoring and the worked example -/

/-- Claim **C5**: when `node_id` has a (unique) matching entry the closeness score
is `weight / (1 + hop)` of that entry, and `0` when no entry matches; on the
spec's worked example the traversal result is as stated and
`closeness(3, result) = (1/2) / 3 = 1/6`. -/
theorem C5_graph_closeness :
    (∀ (v : Nat) (results : List BfsEntry), ∀ entry ∈ results,
      (results.map (fun r => r.id)).Nodup → entry.id = v →
      graph_closeness v results = entry.wt.getD 1 / (1 + (entry.hop : ℚ)))
    ∧ (∀ (v : Nat) (results : List BfsEntry),
      (∀ r ∈ results, r.id ≠ v) → graph_closeness v results = 0)
    ∧ bfs (buildAdj exampleEdges) 1 2 none =
        [⟨2, 1, some "related_to", some 1⟩, ⟨3, 2, some "related_to", some (1/2)⟩]
    ∧ graph_closeness 3 (bfs (buildAdj exampleEdges) 1 2 none) = 1/6 := by
  refine ⟨?_, ?_, rfl, ?_⟩
  · intro v results
    induction results with
    | nil => intro entry he; simp at he
    | cons r rest ih =>
      intro entry he hnodup hid
      by_cases hr : r.id = v
      · have hentry : entry = r := by
          rcases List.mem_cons.1 he with h | h
          · exact h
          · exfalso
            have : r.id ∈ rest.map (fun r => r.id) := by
              rw [hr, ← hid]
              exact List.mem_map_of_mem _ h
            exact (List.nodup_cons.1 hnodup).1 this
        subst hentry
        simp only [graph_closeness, hr, if_true]
        rw [one_div_mul_eq_div]
      · have hmem : entry ∈ rest := by
          rcases List.mem_cons.1 he with h | h
          · exact absurd (h ▸ hid) hr
          · exact h
        simp only [graph_closeness, hr, if_false]
        exact ih entry hmem (List.nodup_cons.1 hnodup).2 hid
  · intro v results hnone
    induction results with
    | nil => rfl
    | cons r rest ih =>
      simp only [graph_closeness, hnone r (List.mem_cons_self _ _), if_false]
      exact ih (fun r' hr' => hnone r' (List.mem_cons_of_mem _ hr'))
  · show (1 / (1 + ((2 : Nat) : ℚ))) * (Option.getD (some ((1 : ℚ)/2)) 1) = 1/6
    norm_num

/-- Witness for C5 at a concrete input. -/
theorem C5_graph_closeness_witness :
    graph_closeness 3 [⟨2, 1, some "related_to", some 1⟩, ⟨3, 2, some "related_to", some (1/2)⟩]
      = (Option.getD (some ((1 : ℚ)/2)) 1) / (1 + ((2 : Nat) : ℚ)) :=
  C5_graph_closeness.1 3
    [⟨2, 1, some "related_to", some 1⟩, ⟨3, 2, some "related_to", some (1/2)⟩]
    ⟨3, 2, some "related_to", some (1/2)⟩
    (List.mem_cons_of_mem _ (List.mem_cons_self _ _)) (by decide) rfl

/-! ### Claim C1: first discovery — shortest hop, uniqueness, root exclusion

The correctness argument is the classical BFS invariant: the queue holds at
most two consecutive levels, every queued node is recorded at its true
(filtered-graph) distance, and all nodes up to the current front depth have
been visited. -/

/-- Paths in the undirected, type-filtered adjacency: `Reach adj allowed s n v`
means `v` is reachable from `s` in exactly `n` steps through adjacency
records whose type passes the filter. -/
inductive Reach (adj : Adj) (allowed : Option (List String)) (s : Nat) : Nat → Nat → Prop
  | zero : Reach adj allowed s 0 s
  | succ {n u : Nat} (e : AdjEntry) (hu : Reach adj allowed s n u)
      (he : e ∈ adjGet adj u) (ht : typeAllowed allowed e.type = true) :
      Reach adj allowed s (n + 1) e.target

/-- Asserts that `n` is the hop distance of `v` from `s`: some path of length `n` reaches
`v` and no shorter one does. -/
def IsDist (adj : Adj) (allowed : Option (List String)) (s n v : Nat) : Prop :=
  Reach adj allowed s n v ∧ ∀ m, Reach adj allowed s m v → n ≤ m

theorem reach_zero_eq {adj : Adj} {allowed : Option (List String)} {s w : Nat}
    (h : Reach adj allowed s 0 w) : w = s := by
  cases h; rfl

theorem isDist_unique {adj : Adj} {allowed : Option (List String)} {s v d₁ d₂ : Nat}
    (h₁ : IsDist adj allowed s d₁ v) (h₂ : IsDist adj allowed s d₂ v) : d₁ = d₂ :=
  Nat.le_antisymm (h₁.2 _ h₂.1) (h₂.2 _ h₁.1)

theorem reach_exists_isDist {adj : Adj} {allowed : Option (List String)} {s v n : Nat}
    (h : Reach adj allowed s n v) : ∃ d ≤ n, IsDist adj allowed s d v := by
  classical
  have hex : ∃ m, Reach adj allowed s m v := ⟨n, h⟩
  let d := Nat.find hex
  exact ⟨d, Nat.find_le h, Nat.find_spec hex, fun m hm => Nat.find_le hm⟩

/-- Discovery property of an emitted BFS entry: not the root, positive hop
equal to the true filtered-graph distance, and metadata carried from an
allowed adjacency record out of a node one level closer to the root. -/
def EmitProp (adj : Adj) (allowed : Option (List String)) (s : Nat) (r : BfsEntry) : Prop :=
  r.id ≠ s ∧ 0 < r.hop ∧ IsDist adj allowed s r.hop r.id ∧
  ∃ u e, IsDist adj allowed s (r.hop - 1) u ∧ e ∈ adjGet adj u ∧
    typeAllowed allowed e.type = true ∧ e.target = r.id ∧
    r.edge = some e.type ∧ r.wt = some e.weight

/-! Further facts about `expandFold`: visited-set growth, freshness,
distinctness and completeness of one node's expansion. -/

theorem expandFold_visited_iff {allowed : Option (List String)} {d : Nat} :
    ∀ {entries : List AdjEntry} {visited : List Nat} {x : Nat},
      x ∈ (expandFold allowed d entries visited).2 ↔
        x ∈ visited ∨ x ∈ (expandFold allowed d entries visited).1.map (fun it => it.node) := by
  intro entries
  induction entries with
  | nil => intro visited x; simp [expandFold]
  | cons e rest ih =>
    intro visited x
    by_cases hall : typeAllowed allowed e.type
    · by_cases hvis : visited.contains e.target
      · simp only [expandFold, hall, hvis, if_true]
        exact ih
      · simp only [expandFold, hall, hvis, if_true, if_false, Bool.false_eq_true,
          List.map_cons, List.mem_cons]
        rw [ih]
        simp only [List.mem_cons]
        tauto
    · simp only [expandFold, hall, Bool.false_eq_true, if_false]
      exact ih

theorem expandFold_visited_subset {allowed : Option (List String)} {d : Nat}
    {entries : List AdjEntry} {visited : List Nat} {x : Nat} (hx : x ∈ visited) :
    x ∈ (expandFold allowed d entries visited).2 :=
  expandFold_visited_iff.2 (Or.inl hx)

theorem expandFold_fresh {allowed : Option (List String)} {d : Nat} :
    ∀ {entries : List AdjEntry} {visited : List Nat} {it : QItem},
      it ∈ (expandFold allowed d entries visited).1 → it.node ∉ visited := by
  intro entries
  induction entries with
  | nil => intro visited it h; simp [expandFold] at h
  | cons e rest ih =>
    intro visited it h
    by_cases hall : typeAllowed allowed e.type
    · by_cases hvis : visited.contains e.target
      · simp only [expandFold, hall, hvis, if_true] at h
        exact ih h
      · simp only [expandFold, hall, hvis, if_true, if_false, Bool.false_eq_true,
          List.mem_cons] at h
        rcases h with rfl | h
        · simpa using hvis
        · have := ih h
          intro hc
          exact this (List.mem_cons_of_mem _ hc)
    · simp only [expandFold, hall, Bool.false_eq_true, if_false] at h
      exact ih h

theorem expandFold_nodup {allowed : Option (List String)} {d : Nat} :
    ∀ {entries : List AdjEntry} {visited : List Nat},
      ((expandFold allowed d entries visited).1.map (fun it => it.node)).Nodup := by
  intro entries
  induction entries with
  | nil => intro visited; simp [expandFold]
  | cons e rest ih =>
    intro visited
    by_cases hall : typeAllowed allowed e.type
    · by_cases hvis : visited.contains e.target
      · simp only [expandFold, hall, hvis, if_true]
        exact ih
      · simp only [expandFold, hall, hvis, if_true, if_false, Bool.false_eq_true,
          List.map_cons, List.nodup_cons]
        refine ⟨?_, ih⟩
        intro hc
        simp only [List.mem_map] at hc
        obtain ⟨it, hit, hnode⟩ := hc
        have := expandFold_fresh hit
        exact this (hnode ▸ List.mem_cons_self _ _)
    · simp only [expandFold, hall, Bool.false_eq_true, if_false]
      exact ih

theorem expandFold_complete {allowed : Option (List String)} {d : Nat} :
    ∀ {entries : List AdjEntry} {visited : List Nat} {e : AdjEntry},
      e ∈ entries → typeAllowed allowed e.type = true →
      e.target ∈ (expandFold allowed d entries visited).2 := by
  intro entries
  induction entries with
  | nil => intro visited e h; simp at h
  | cons e₀ rest ih =>
    intro visited e hmem hall
    rcases List.mem_cons.1 hmem with rfl | hmem
    · by_cases hvis : visited.contains e.target
      · simp only [expandFold, hall, hvis, if_true]
        exact expandFold_visited_subset (by simpa using hvis)
      · simp only [expandFold, hall, hvis, if_true, if_false, Bool.false_eq_true]
        exact expandFold_visited_subset (List.mem_cons_self _ _)
    · by_cases hall₀ : typeAllowed allowed e₀.type
      · by_cases hvis : visited.contains e₀.target
        · simp only [expandFold, hall₀, hvis, if_true]
          exact ih hmem hall
        · simp only [expandFold, hall₀, hvis, if_true, if_false, Bool.false_eq_true]
          exact ih hmem hall
      · simp only [expandFold, hall₀, Bool.false_eq_true, if_false]
        exact ih hmem hall

/-- The discovering edge of `v`, read off declaratively: scan the given
node order (the BFS processing order), and for each node its adjacency list
in insertion order, and return the first allowed record targeting `v`
together with its parent. -/
def discover (adj : Adj) (allowed : Option (List String)) (order : List Nat)
    (v : Nat) : Option (Nat × AdjEntry) :=
  order.findSome? (fun u =>
    ((adjGet adj u).find? (fun ed => typeAllowed allowed ed.type && ed.target == v)).map
      (fun ed => (u, ed)))

theorem discover_append {adj : Adj} {allowed : Option (List String)}
    {order ext : List Nat} {v : Nat} {x : Nat × AdjEntry}
    (h : discover adj allowed order v = some x) :
    discover adj allowed (order ++ ext) v = some x := by
  unfold discover at h ⊢
  rw [List.findSome?_append, h]
  rfl

/-- Each produced queue item carries the data of the *first* adjacency
record with an allowed type targeting its node: records skipped earlier in
the scan either have a disallowed type or a different target (this item's
node was unvisited throughout the earlier scan). -/
theorem expandFold_find {allowed : Option (List String)} {d : Nat} :
    ∀ {entries : List AdjEntry} {visited : List Nat} {it : QItem},
      it ∈ (expandFold allowed d entries visited).1 →
      ∃ ed, entries.find? (fun e => typeAllowed allowed e.type && e.target == it.node)
          = some ed ∧
        it.etype = some ed.type ∧ it.wt = some ed.weight ∧ ed.target = it.node := by
  intro entries
  induction entries with
  | nil => intro visited it h; simp [expandFold] at h
  | cons e rest ih =>
    intro visited it h
    by_cases hall : typeAllowed allowed e.type
    · by_cases hvis : visited.contains e.target
      · simp only [expandFold, hall, hvis, if_true] at h
        obtain ⟨ed, hfind, h1, h2, h3⟩ := ih h
        refine ⟨ed, ?_, h1, h2, h3⟩
        rw [List.find?_cons_of_neg, hfind]
        have hne : e.target ≠ it.node := by
          intro hc
          exact expandFold_fresh h (by rw [← hc]; simpa using hvis)
        simp [hall, hne]
      · simp only [expandFold, hall, hvis, if_true, if_false, Bool.false_eq_true,
          List.mem_cons] at h
        rcases h with rfl | h
        · refine ⟨e, ?_, rfl, rfl, rfl⟩
          rw [List.find?_cons_of_pos]
          simp [hall]
        · obtain ⟨ed, hfind, h1, h2, h3⟩ := ih h
          refine ⟨ed, ?_, h1, h2, h3⟩
          rw [List.find?_cons_of_neg, hfind]
          have hne : e.target ≠ it.node := by
            intro hc
            exact expandFold_fresh h (by rw [hc]; exact List.mem_cons_self _ _)
          simp [hall, hne]
    · simp only [expandFold, hall, Bool.false_eq_true, if_false] at h
      obtain ⟨ed, hfind, h1, h2, h3⟩ := ih h
      refine ⟨ed, ?_, h1, h2, h3⟩
      rw [List.find?_cons_of_neg, hfind]
      simp [hall]

/-- The BFS loop invariant.  `Q`, `V`, `R` are the queue, visited set and
result list; `s` is the start node. -/
structure BfsInv (adj : Adj) (allowed : Option (List String)) (s maxd : Nat)
    (Q : List QItem) (V : List Nat) (R : List BfsEntry) : Prop where
  q_dist : ∀ q ∈ Q, IsDist adj allowed s q.depth q.node
  q_root : ∀ q ∈ Q, q.depth = 0 → q.node = s
  q_not_s : ∀ q ∈ Q, 0 < q.depth → q.node ≠ s
  q_prov : ∀ q ∈ Q, 0 < q.depth → ∃ u e, IsDist adj allowed s (q.depth - 1) u ∧
      e ∈ adjGet adj u ∧ typeAllowed allowed e.type = true ∧ e.target = q.node ∧
      q.etype = some e.type ∧ q.wt = some e.weight
  q_le_maxd : ∀ q ∈ Q, q.depth ≤ maxd
  q_sorted : (Q.map (fun q => q.depth)).Sorted (· ≤ ·)
  q_window : ∀ q₀ rest, Q = q₀ :: rest → ∀ p ∈ Q, p.depth ≤ q₀.depth + 1
  r_good : ∀ r ∈ R, EmitProp adj allowed s r
  nodup : (R.map (fun r => r.id) ++ Q.map (fun q => q.node)).Nodup
  vis_iff : ∀ w, w ∈ V ↔ (w = s ∨ w ∈ R.map (fun r => r.id) ∨ w ∈ Q.map (fun q => q.node))
  complete : ∀ q₀ rest, Q = q₀ :: rest → ∀ w m, Reach adj allowed s m w →
      m ≤ q₀.depth → w ∈ V
  processed : ∀ u du, ((u = s ∧ du = 0) ∨ ∃ r ∈ R, r.id = u ∧ r.hop = du) →
      u ∉ Q.map (fun q => q.node) → du < maxd →
      ∀ e ∈ adjGet adj u, typeAllowed allowed e.type = true → e.target ∈ V
  r_le_front : ∀ q₀ rest, Q = q₀ :: rest → ∀ r ∈ R, r.hop ≤ q₀.depth
  q_discover : ∀ q ∈ Q, 0 < q.depth → ∃ u ed,
      discover adj allowed (s :: R.map (fun r => r.id)) q.node = some (u, ed) ∧
      q.etype = some ed.type ∧ q.wt = some ed.weight
  r_discover : ∀ r ∈ R, ∃ u ed,
      discover adj allowed (s :: R.map (fun r => r.id)) r.id = some (u, ed) ∧
      r.edge = some ed.type ∧ r.wt = some ed.weight

/-- The result record produced when a queue item is dequeued with `hop > 0`. -/
def emit (q : QItem) : BfsEntry := ⟨q.node, q.depth, q.etype, q.wt⟩

theorem pop_r_good {adj : Adj} {allowed : Option (List String)} {s maxd : Nat}
    {q : QItem} {rest : List QItem} {V : List Nat} {R : List BfsEntry}
    (inv : BfsInv adj allowed s maxd (q :: rest) V R) :
    ∀ r ∈ (if 0 < q.depth then R ++ [emit q] else R), EmitProp adj allowed s r := by
  split
  · intro r hr
    rcases List.mem_append.1 hr with hr | hr
    · exact inv.r_good r hr
    · rcases List.mem_singleton.1 hr with rfl
      refine ⟨inv.q_not_s q (List.mem_cons_self _ _) (by assumption),
        (by assumption), inv.q_dist q (List.mem_cons_self _ _),
        inv.q_prov q (List.mem_cons_self _ _) (by assumption)⟩
  · exact inv.r_good

theorem pop_order_eq (s : Nat) (q : QItem) (R : List BfsEntry) :
    s :: ((if 0 < q.depth then R ++ [emit q] else R).map (fun r => r.id)) =
      (s :: R.map (fun r => r.id)) ++ (if 0 < q.depth then [q.node] else []) := by
  by_cases h : 0 < q.depth <;> simp [h, emit]

theorem pop_q_discover {adj : Adj} {allowed : Option (List String)} {s maxd : Nat}
    {q : QItem} {rest : List QItem} {V : List Nat} {R : List BfsEntry}
    (inv : BfsInv adj allowed s maxd (q :: rest) V R) :
    ∀ p ∈ rest, 0 < p.depth → ∃ u ed,
      discover adj allowed
        (s :: ((if 0 < q.depth then R ++ [emit q] else R).map (fun r => r.id)))
        p.node = some (u, ed) ∧
      p.etype = some ed.type ∧ p.wt = some ed.weight := by
  intro p hp hpos
  obtain ⟨u, ed, hd, h1, h2⟩ := inv.q_discover p (List.mem_cons_of_mem _ hp) hpos
  exact ⟨u, ed, by rw [pop_order_eq]; exact discover_append hd, h1, h2⟩

theorem pop_r_discover {adj : Adj} {allowed : Option (List String)} {s maxd : Nat}
    {q : QItem} {rest : List QItem} {V : List Nat} {R : List BfsEntry}
    (inv : BfsInv adj allowed s maxd (q :: rest) V R) :
    ∀ r ∈ (if 0 < q.depth then R ++ [emit q] else R), ∃ u ed,
      discover adj allowed
        (s :: ((if 0 < q.depth then R ++ [emit q] else R).map (fun r => r.id)))
        r.id = some (u, ed) ∧
      r.edge = some ed.type ∧ r.wt = some ed.weight := by
  intro r hr
  rw [pop_order_eq]
  by_cases hpos : 0 < q.depth
  · rw [if_pos hpos] at hr
    rcases List.mem_append.1 hr with hr | hr
    · obtain ⟨u, ed, hd, h1, h2⟩ := inv.r_discover r hr
      exact ⟨u, ed, discover_append hd, h1, h2⟩
    · rcases List.mem_singleton.1 hr with rfl
      obtain ⟨u, ed, hd, h1, h2⟩ := inv.q_discover q (List.mem_cons_self _ _) hpos
      exact ⟨u, ed, discover_append hd, h1, h2⟩
  · rw [if_neg hpos] at hr
    obtain ⟨u, ed, hd, h1, h2⟩ := inv.r_discover r hr
    exact ⟨u, ed, discover_append hd, h1, h2⟩

theorem bfsInv_cutoff {adj : Adj} {allowed : Option (List String)} {s maxd : Nat}
    {q : QItem} {rest : List QItem} {V : List Nat} {R : List BfsEntry}
    (inv : BfsInv adj allowed s maxd (q :: rest) V R) (hd : q.depth = maxd) :
    BfsInv adj allowed s maxd rest V (if 0 < q.depth then R ++ [emit q] else R) := by
  have hmemq : q ∈ q :: rest := List.mem_cons_self _ _
  have hsub : ∀ p ∈ rest, p ∈ q :: rest := fun p hp => List.mem_cons_of_mem _ hp
  refine ⟨fun p hp => inv.q_dist p (hsub p hp), fun p hp => inv.q_root p (hsub p hp),
    fun p hp => inv.q_not_s p (hsub p hp), fun p hp => inv.q_prov p (hsub p hp),
    fun p hp => inv.q_le_maxd p (hsub p hp), ?_, ?_, pop_r_good inv, ?_, ?_, ?_, ?_, ?_,
    pop_q_discover inv, pop_r_discover inv⟩
  · exact (by simpa using inv.q_sorted : ((q :: rest).map (fun p => p.depth)).Sorted (· ≤ ·)).of_cons
  · -- window
    intro q₀ rest' hrest p hp
    have hsorted : (q.depth :: rest.map (fun p => p.depth)).Sorted (· ≤ ·) := by
      simpa using inv.q_sorted
    have hq₀ : q.depth ≤ q₀.depth :=
      List.rel_of_sorted_cons hsorted q₀.depth (by rw [hrest]; simp)
    have := inv.q_window q rest rfl p (hsub p hp)
    omega
  · -- nodup
    by_cases hpos : 0 < q.depth
    · simp only [hpos, if_true, List.map_append, List.map_cons, List.map_nil]
      have : (R.map (fun r => r.id) ++ [(emit q).id]) ++ rest.map (fun p => p.node)
          = R.map (fun r => r.id) ++ q.node :: rest.map (fun p => p.node) := by
        simp [emit]
      rw [this]
      simpa using inv.nodup
    · simp only [hpos, if_false]
      refine inv.nodup.sublist ?_
      refine List.Sublist.append_left ?_ _
      simp only [List.map_cons]
      exact List.sublist_cons_self q.node (rest.map (fun p => p.node))
  · -- vis_iff
    intro w
    rw [inv.vis_iff w]
    by_cases hpos : 0 < q.depth
    · simp only [hpos, if_true, List.map_append, List.mem_append, List.map_cons,
        List.mem_cons, List.mem_singleton, emit]
      tauto
    · have hq0 : q.depth = 0 := Nat.eq_zero_of_not_pos hpos
      have hqs : q.node = s := inv.q_root q hmemq hq0
      simp only [hpos, if_false, List.map_cons, List.mem_cons, hqs]
      tauto
  · -- complete
    intro q₀ rest' hrest w m hreach hm
    have hq₀maxd : q₀.depth ≤ maxd := inv.q_le_maxd q₀ (by rw [hrest]; simp)
    exact inv.complete q rest rfl w m hreach (by omega)
  · -- processed
    intro u du hdisj hnotin hlt e he hall
    have hu_ne_q : u ≠ q.node := by
      rcases hdisj with ⟨rfl, rfl⟩ | ⟨r, hr, rfl, rfl⟩
      · -- u = s, du = 0 < maxd = q.depth, so q is not the root
        intro hc
        have : 0 < q.depth := by omega
        exact inv.q_not_s q hmemq this hc.symm
      · -- u comes from an already-emitted record
        by_cases hpos : 0 < q.depth
        · simp only [hpos, if_true] at hr
          rcases List.mem_append.1 hr with hr | hr
          · intro hc
            have hdisj' := (List.nodup_append.1 inv.nodup).2.2
            exact hdisj' (List.mem_map_of_mem _ hr) (by simp [hc])
          · rcases List.mem_singleton.1 hr with rfl
            simp only [emit] at hlt ⊢
            omega
        · simp only [hpos, if_false] at hr
          intro hc
          have hdisj' := (List.nodup_append.1 inv.nodup).2.2
          exact hdisj' (List.mem_map_of_mem _ hr) (by simp [hc])
    have hdisj₀ : (u = s ∧ du = 0) ∨ ∃ r ∈ R, r.id = u ∧ r.hop = du := by
      rcases hdisj with h | ⟨r, hr, hru, hrd⟩
      · exact Or.inl h
      · by_cases hpos : 0 < q.depth
        · simp only [hpos, if_true] at hr
          rcases List.mem_append.1 hr with hr | hr
          · exact Or.inr ⟨r, hr, hru, hrd⟩
          · rcases List.mem_singleton.1 hr with rfl
            exact absurd hru.symm (by simpa [emit] using hu_ne_q)
        · simp only [hpos, if_false] at hr
          exact Or.inr ⟨r, hr, hru, hrd⟩
    refine inv.processed u du hdisj₀ ?_ hlt e he hall
    simp only [List.map_cons, List.mem_cons]
    rintro (hc | hc)
    · exact hu_ne_q hc
    · exact hnotin hc
  · -- r_le_front
    intro q₀ rest' hrest r hr
    have hsorted : (q.depth :: rest.map (fun p => p.depth)).Sorted (· ≤ ·) := by
      simpa using inv.q_sorted
    have hq₀ : q.depth ≤ q₀.depth :=
      List.rel_of_sorted_cons hsorted q₀.depth (by rw [hrest]; simp)
    split at hr
    · rcases List.mem_append.1 hr with hr | hr
      · have := inv.r_le_front q rest rfl r hr
        omega
      · rcases List.mem_singleton.1 hr with rfl
        simp only [emit]
        omega
    · have := inv.r_le_front q rest rfl r hr
      omega

theorem bfsInv_expand {adj : Adj} {allowed : Option (List String)} {s maxd : Nat}
    {q : QItem} {rest : List QItem} {V : List Nat} {R : List BfsEntry}
    (inv : BfsInv adj allowed s maxd (q :: rest) V R) (hd : ¬q.depth = maxd) :
    BfsInv adj allowed s maxd
      (rest ++ (expandFold allowed q.depth (adjGet adj q.node) V).1)
      (expandFold allowed q.depth (adjGet adj q.node) V).2
      (if 0 < q.depth then R ++ [emit q] else R) := by
  have hmemq : q ∈ q :: rest := List.mem_cons_self _ _
  set news := (expandFold allowed q.depth (adjGet adj q.node) V).1 with hnews_def
  set V' := (expandFold allowed q.depth (adjGet adj q.node) V).2 with hV'_def
  have hdlt : q.depth < maxd := Nat.lt_of_le_of_ne (inv.q_le_maxd q hmemq) hd
  have hshape : ∀ it ∈ news, ∃ e ∈ adjGet adj q.node, typeAllowed allowed e.type = true ∧
      it = ⟨e.target, q.depth + 1, some e.type, some e.weight⟩ :=
    fun it hit => expandFold_mem hit
  have hfresh : ∀ it ∈ news, it.node ∉ V := fun it hit => expandFold_fresh hit
  have hV'iff : ∀ x, x ∈ V' ↔ x ∈ V ∨ x ∈ news.map (fun it => it.node) :=
    fun x => expandFold_visited_iff
  have hVsub : ∀ x ∈ V, x ∈ V' := fun x hx => expandFold_visited_subset hx
  have hnewsnd : (news.map (fun it => it.node)).Nodup := expandFold_nodup
  have hexp : ∀ e ∈ adjGet adj q.node, typeAllowed allowed e.type = true → e.target ∈ V' :=
    fun e he hall => expandFold_complete he hall
  have hsorted : (q.depth :: rest.map (fun p => p.depth)).Sorted (· ≤ ·) := by
    simpa using inv.q_sorted
  have hrestge : ∀ p ∈ rest, q.depth ≤ p.depth := fun p hp =>
    List.rel_of_sorted_cons hsorted p.depth (List.mem_map_of_mem _ hp)
  have hrestle : ∀ p ∈ rest, p.depth ≤ q.depth + 1 := fun p hp =>
    inv.q_window q rest rfl p (List.mem_cons_of_mem _ hp)
  have hs_in_V : s ∈ V := (inv.vis_iff s).2 (Or.inl rfl)
  have hnews_depth : ∀ it ∈ news, it.depth = q.depth + 1 := by
    intro it hit
    obtain ⟨e, _, _, rfl⟩ := hshape it hit
    rfl
  have hnews_dist : ∀ it ∈ news, IsDist adj allowed s (q.depth + 1) it.node := by
    intro it hit
    obtain ⟨e, he, hall, heq⟩ := hshape it hit
    have hnode : it.node = e.target := by rw [heq]
    rw [hnode]
    constructor
    · exact Reach.succ e (inv.q_dist q hmemq).1 he hall
    · intro m hm
      by_contra hlt
      have hmle : m ≤ q.depth := by omega
      have : e.target ∈ V := inv.complete q rest rfl _ m hm hmle
      exact hfresh it hit (hnode ▸ this)
  -- the full old occupancy list, used for nodup bookkeeping
  have hA_V : ∀ x, x ∈ R.map (fun r => r.id) ++ q.node :: rest.map (fun p => p.node) →
      x ∈ V := by
    intro x hx
    refine (inv.vis_iff x).2 ?_
    rcases List.mem_append.1 hx with hx | hx
    · exact Or.inr (Or.inl hx)
    · exact Or.inr (Or.inr (by simpa using hx))
  have hbig : ((R.map (fun r => r.id) ++ q.node :: rest.map (fun p => p.node)) ++
      news.map (fun it => it.node)).Nodup := by
    rw [List.nodup_append]
    refine ⟨inv.nodup, hnewsnd, ?_⟩
    intro x hxA hxN
    obtain ⟨it, hit, hnode⟩ := List.mem_map.1 hxN
    exact hfresh it hit (hnode ▸ hA_V x hxA)
  have hsorted_new : ((rest ++ news).map (fun p => p.depth)).Sorted (· ≤ ·) := by
    rw [List.map_append]
    rw [show List.Sorted (α := Nat) (· ≤ ·) = List.Pairwise (· ≤ ·) from rfl,
      List.pairwise_append]
    refine ⟨hsorted.of_cons, ?_, ?_⟩
    · refine List.pairwise_of_forall_mem_list ?_
      intro a ha b hb
      obtain ⟨it, hit, rfl⟩ := List.mem_map.1 ha
      obtain ⟨it', hit', rfl⟩ := List.mem_map.1 hb
      rw [hnews_depth it hit, hnews_depth it' hit']
    · intro a ha b hb
      obtain ⟨p, hp, rfl⟩ := List.mem_map.1 ha
      obtain ⟨it, hit, rfl⟩ := List.mem_map.1 hb
      rw [hnews_depth it hit]
      exact hrestle p hp
  refine ⟨?_, ?_, ?_, ?_, ?_, ?_, ?_, pop_r_good inv, ?_, ?_, ?_, ?_, ?_, ?_,
    pop_r_discover inv⟩
  · -- q_dist
    intro p hp
    rcases List.mem_append.1 hp with hp | hp
    · exact inv.q_dist p (List.mem_cons_of_mem _ hp)
    · have := hnews_dist p hp
      rw [hnews_depth p hp]
      exact this
  · -- q_root
    intro p hp h0
    rcases List.mem_append.1 hp with hp | hp
    · exact inv.q_root p (List.mem_cons_of_mem _ hp) h0
    · exact absurd h0 (by rw [hnews_depth p hp]; omega)
  · -- q_not_s
    intro p hp hpos
    rcases List.mem_append.1 hp with hp | hp
    · exact inv.q_not_s p (List.mem_cons_of_mem _ hp) hpos
    · intro hc
      exact hfresh p hp (hc ▸ hs_in_V)
  · -- q_prov
    intro p hp hpos
    rcases List.mem_append.1 hp with hp | hp
    · exact inv.q_prov p (List.mem_cons_of_mem _ hp) hpos
    · obtain ⟨e, he, hall, rfl⟩ := hshape p hp
      exact ⟨q.node, e, by simpa using inv.q_dist q hmemq, he, hall, rfl, rfl, rfl⟩
  · -- q_le_maxd
    intro p hp
    rcases List.mem_append.1 hp with hp | hp
    · exact inv.q_le_maxd p (List.mem_cons_of_mem _ hp)
    · rw [hnews_depth p hp]; omega
  · -- q_sorted
    exact hsorted_new
  · -- q_window
    intro q₀ rest' heq p hp
    have hq₀mem : q₀ ∈ rest ++ news := by rw [heq]; exact List.mem_cons_self _ _
    have hq₀ge : q.depth ≤ q₀.depth := by
      rcases List.mem_append.1 hq₀mem with h | h
      · exact hrestge q₀ h
      · rw [hnews_depth q₀ h]; omega
    rcases List.mem_append.1 hp with hp | hp
    · have := hrestle p hp; omega
    · rw [hnews_depth p hp]; omega
  · -- nodup
    by_cases hpos : 0 < q.depth
    · simp only [hpos, if_true, List.map_append, List.map_cons, List.map_nil]
      have heq : (R.map (fun r => r.id) ++ [(emit q).id]) ++
          (rest.map (fun p => p.node) ++ news.map (fun it => it.node)) =
          (R.map (fun r => r.id) ++ q.node :: rest.map (fun p => p.node)) ++
            news.map (fun it => it.node) := by
        simp [emit]
      rw [heq]
      exact hbig
    · simp only [hpos, if_false, List.map_append]
      refine hbig.sublist ?_
      have h1 : List.Sublist (rest.map (fun p => p.node))
          (q.node :: rest.map (fun p => p.node)) := List.sublist_cons_self _ _
      have h2 := (h1.append_left (R.map (fun r => r.id))).append_right
        (news.map (fun it => it.node))
      simpa only [List.append_assoc] using h2
  · -- vis_iff
    intro w
    rw [hV'iff w, inv.vis_iff w]
    by_cases hpos : 0 < q.depth
    · simp only [hpos, if_true, List.map_append, List.mem_append, List.map_cons,
        List.mem_cons, List.map_nil, List.mem_singleton, emit]
      tauto
    · have hq0 : q.depth = 0 := Nat.eq_zero_of_not_pos hpos
      have hqs : q.node = s := inv.q_root q hmemq hq0
      simp only [hpos, if_false, List.map_append, List.mem_append, List.map_cons,
        List.mem_cons, hqs]
      tauto
  · -- complete
    intro q₀ rest' heq w m hreach hm
    have hq₀mem : q₀ ∈ rest ++ news := by rw [heq]; exact List.mem_cons_self _ _
    have hq₀le : q₀.depth ≤ q.depth + 1 := by
      rcases List.mem_append.1 hq₀mem with h | h
      · exact hrestle q₀ h
      · rw [hnews_depth q₀ h]
    by_cases hmle : m ≤ q.depth
    · exact hVsub _ (inv.complete q rest rfl w m hreach hmle)
    · -- m = q.depth + 1: invert the path
      have hmeq : m = q.depth + 1 := by omega
      subst hmeq
      cases hreach with
      | succ e hu he hall =>
        rename_i u
        obtain ⟨du, hdule, hdu⟩ := reach_exists_isDist hu
        have huV : u ∈ V := inv.complete q rest rfl u du hdu.1 hdule
        rcases (inv.vis_iff u).1 huV with hus | huR | huQ
        · -- u = s
          by_cases hqs : q.node = u
          · exact hexp e (hqs ▸ he) hall
          · have hnotin : u ∉ (List.map (fun p => p.node) (q :: rest)) := by
              simp only [List.map_cons, List.mem_cons]
              rintro (hc | hc)
              · exact hqs hc.symm
              · obtain ⟨p, hp, hpu⟩ := List.mem_map.1 hc
                have hpd : IsDist adj allowed s p.depth u :=
                  hpu ▸ inv.q_dist p (List.mem_cons_of_mem _ hp)
                have hzero : IsDist adj allowed s 0 u := by
                  rw [hus]
                  exact ⟨Reach.zero, fun m _ => Nat.zero_le m⟩
                have hp0 : p.depth = 0 := isDist_unique hpd hzero
                have hq0 : q.depth = 0 := by
                  have := hrestge p hp; omega
                exact hqs (by rw [hus]; exact inv.q_root q hmemq hq0)
            exact hVsub _ (inv.processed u 0 (Or.inl ⟨hus, rfl⟩) hnotin
              (by omega) e he hall)
        · -- u was already emitted
          obtain ⟨r, hr, hru⟩ := List.mem_map.1 huR
          have hrgood := inv.r_good r hr
          have hrdist : IsDist adj allowed s r.hop u := hru ▸ hrgood.2.2.1
          have hhop : r.hop = du := isDist_unique hrdist hdu
          have hnotin : u ∉ (List.map (fun p => p.node) (q :: rest)) := by
            intro hc
            exact (List.nodup_append.1 inv.nodup).2.2 huR hc
          exact hVsub _ (inv.processed u r.hop (Or.inr ⟨r, hr, hru, rfl⟩) hnotin
            (by omega) e he hall)
        · -- u is still queued: impossible unless u is the node being expanded
          rcases (by simpa using huQ : u = q.node ∨
              u ∈ rest.map (fun p => p.node)) with rfl | huRest
          · exact hexp e he hall
          · obtain ⟨p, hp, hpu⟩ := List.mem_map.1 huRest
            have hpd : IsDist adj allowed s p.depth u :=
              hpu ▸ inv.q_dist p (List.mem_cons_of_mem _ hp)
            have hpdu : p.depth = du := isDist_unique hpd hdu
            -- but every still-queued node now sits at depth ≥ q₀.depth ≥ q.depth + 1
            have hq₀ge' : q.depth + 1 ≤ q₀.depth := hm
            have hge : q₀.depth ≤ p.depth := by
              have hpmem : p ∈ rest ++ news := List.mem_append.2 (Or.inl hp)
              rw [heq] at hpmem
              rcases List.mem_cons.1 hpmem with rfl | hpmem
              · exact le_refl _
              · have hs' : (q₀.depth :: rest'.map (fun p => p.depth)).Sorted (· ≤ ·) := by
                  have hx := hsorted_new
                  rw [heq] at hx
                  simpa using hx
                exact List.rel_of_sorted_cons hs' p.depth (List.mem_map_of_mem _ hpmem)
            omega
  · -- processed
    intro u du hdisj hnotin hlt e he hall
    by_cases huq : u = q.node
    · exact hexp e (huq ▸ he) hall
    · have hdisj₀ : (u = s ∧ du = 0) ∨ ∃ r ∈ R, r.id = u ∧ r.hop = du := by
        rcases hdisj with h | ⟨r, hr, hru, hrd⟩
        · exact Or.inl h
        · by_cases hpos : 0 < q.depth
          · simp only [hpos, if_true] at hr
            rcases List.mem_append.1 hr with hr | hr
            · exact Or.inr ⟨r, hr, hru, hrd⟩
            · rcases List.mem_singleton.1 hr with rfl
              exact absurd hru (by simpa [emit] using Ne.symm huq)
          · simp only [hpos, if_false] at hr
            exact Or.inr ⟨r, hr, hru, hrd⟩
      have hnotin' : u ∉ (List.map (fun p => p.node) (q :: rest)) := by
        simp only [List.map_cons, List.mem_cons]
        rintro (hc | hc)
        · exact huq hc
        · exact hnotin (by simp only [List.map_append, List.mem_append]; exact Or.inl hc)
      exact hVsub _ (inv.processed u du hdisj₀ hnotin' hlt e he hall)
  · -- r_le_front
    intro q₀ rest' heq r hr
    have hq₀mem : q₀ ∈ rest ++ news := by rw [heq]; exact List.mem_cons_self _ _
    have hq₀ge : q.depth ≤ q₀.depth := by
      rcases List.mem_append.1 hq₀mem with hm | hm
      · exact hrestge q₀ hm
      · rw [hnews_depth q₀ hm]; omega
    split at hr
    · rcases List.mem_append.1 hr with hr | hr
      · have := inv.r_le_front q rest rfl r hr
        omega
      · rcases List.mem_singleton.1 hr with rfl
        simp only [emit]
        omega
    · have := inv.r_le_front q rest rfl r hr
      omega
  · -- q_discover
    intro p hp hpos
    rcases List.mem_append.1 hp with hp | hp
    · exact pop_q_discover inv p hp hpos
    · -- newly enqueued item: its discovering record is the first allowed record
      -- of q.node targeting it; every node emitted earlier was already fully
      -- expanded, so none of them has an allowed record to this (unvisited) node
      obtain ⟨ed, hfind, h1, h2, h3⟩ := expandFold_find hp
      by_cases hq0 : 0 < q.depth
      · refine ⟨q.node, ed, ?_, h1, h2⟩
        rw [pop_order_eq, if_pos hq0]
        have hs_notin : s ∉ (List.map (fun p => p.node) (q :: rest)) := by
          simp only [List.map_cons, List.mem_cons]
          rintro (hc | hc)
          · exact inv.q_not_s q (List.mem_cons_self _ _) hq0 hc.symm
          · obtain ⟨p', hp', hpn⟩ := List.mem_map.1 hc
            have hp'pos : 0 < p'.depth := by
              have := hrestge p' hp'
              omega
            exact inv.q_not_s p' (List.mem_cons_of_mem _ hp') hp'pos hpn
        have hnone : (s :: R.map (fun r => r.id)).findSome? (fun u =>
            ((adjGet adj u).find? (fun e =>
              typeAllowed allowed e.type && e.target == p.node)).map
              (fun e => (u, e))) = none := by
          refine List.findSome?_eq_none_iff.2 ?_
          intro w hw
          have hwexp : ∀ e' ∈ adjGet adj w, typeAllowed allowed e'.type = true →
              e'.target ∈ V := by
            rcases List.mem_cons.1 hw with rfl | hwR
            · exact inv.processed w 0 (Or.inl ⟨rfl, rfl⟩) hs_notin (by omega)
            · obtain ⟨r, hrR, hrid⟩ := List.mem_map.1 hwR
              refine inv.processed w r.hop (Or.inr ⟨r, hrR, hrid, rfl⟩) ?_ ?_
              · intro hc
                exact (List.nodup_append.1 inv.nodup).2.2
                  (hrid ▸ List.mem_map_of_mem _ hrR) hc
              · have := inv.r_le_front q rest rfl r hrR
                omega
          have hfind_none : (adjGet adj w).find? (fun e =>
              typeAllowed allowed e.type && e.target == p.node) = none := by
            refine List.find?_eq_none.2 ?_
            intro e' he' hpred
            have hall : typeAllowed allowed e'.type = true := Bool.and_elim_left hpred
            have htar : e'.target = p.node := by
              have := Bool.and_elim_right hpred
              simpa using this
            exact hfresh p hp (htar ▸ hwexp e' he' hall)
          rw [hfind_none]
          rfl
        unfold discover
        rw [List.findSome?_append, hnone]
        simp [List.findSome?, hfind]
      · -- the root is being expanded; nothing was emitted yet
        have hR : R = [] := by
          cases hRe : R with
          | nil => rfl
          | cons r₀ R' =>
            exfalso
            have hm : r₀ ∈ R := by rw [hRe]; exact List.mem_cons_self _ _
            have hle := inv.r_le_front q rest rfl r₀ hm
            have hgood := (inv.r_good r₀ hm).2.1
            omega
        have hq0' : q.depth = 0 := by omega
        have hqs : q.node = s := inv.q_root q (List.mem_cons_self _ _) hq0'
        refine ⟨s, ed, ?_, h1, h2⟩
        rw [pop_order_eq, if_neg hq0, hR]
        unfold discover
        simp only [List.map_nil, List.append_nil]
        rw [← hqs]
        simp [List.findSome?, hfind]

theorem bfsLoop_step (adj : Adj) (allowed : Option (List String)) (maxd n : Nat)
    (q : QItem) (rest : List QItem) (V : List Nat) (R : List BfsEntry) :
    bfsLoop adj allowed maxd (n + 1) (q :: rest) V R =
      if q.depth = maxd then
        bfsLoop adj allowed maxd n rest V (if 0 < q.depth then R ++ [emit q] else R)
      else
        bfsLoop adj allowed maxd n
          (rest ++ (expandFold allowed q.depth (adjGet adj q.node) V).1)
          (expandFold allowed q.depth (adjGet adj q.node) V).2
          (if 0 < q.depth then R ++ [emit q] else R) :=
  rfl

/-- Every run of the BFS loop from an invariant state emits only discovery
records, with pairwise-distinct node ids, each carrying the data of the
first allowed adjacency record reaching it in processing order — no matter
how much fuel is available. -/
theorem bfsLoop_inv (adj : Adj) (allowed : Option (List String)) (s maxd : Nat) :
    ∀ (fuel : Nat) (Q : List QItem) (V : List Nat) (R : List BfsEntry),
      BfsInv adj allowed s maxd Q V R →
      ((bfsLoop adj allowed maxd fuel Q V R).map (fun r => r.id)).Nodup ∧
      (∀ e ∈ bfsLoop adj allowed maxd fuel Q V R, EmitProp adj allowed s e) ∧
      (∀ e ∈ bfsLoop adj allowed maxd fuel Q V R, ∃ u ed,
        discover adj allowed
          (s :: (bfsLoop adj allowed maxd fuel Q V R).map (fun r => r.id)) e.id
          = some (u, ed) ∧
        e.edge = some ed.type ∧ e.wt = some ed.weight) := by
  intro fuel
  induction fuel with
  | zero =>
    intro Q V R inv
    simp only [bfsLoop]
    exact ⟨inv.nodup.of_append_left, inv.r_good, inv.r_discover⟩
  | succ n ih =>
    intro Q V R inv
    match Q with
    | [] =>
      simp only [bfsLoop]
      exact ⟨inv.nodup.of_append_left, inv.r_good, inv.r_discover⟩
    | q :: rest =>
      rw [bfsLoop_step]
      by_cases hd : q.depth = maxd
      · rw [if_pos hd]
        exact ih rest V _ (bfsInv_cutoff inv hd)
      · rw [if_neg hd]
        exact ih _ _ _ (bfsInv_expand inv hd)

theorem bfsInv_init (adj : Adj) (allowed : Option (List String)) (s maxd : Nat) :
    BfsInv adj allowed s maxd [⟨s, 0, none, none⟩] [s] [] := by
  have hdist : IsDist adj allowed s 0 s := ⟨Reach.zero, fun m _ => Nat.zero_le m⟩
  refine ⟨?_, ?_, ?_, ?_, ?_, ?_, ?_, ?_, ?_, ?_, ?_, ?_, ?_, ?_, ?_⟩
  · intro p hp; rcases List.mem_singleton.1 hp with rfl; exact hdist
  · intro p hp _; rcases List.mem_singleton.1 hp with rfl; rfl
  · intro p hp h0; rcases List.mem_singleton.1 hp with rfl; simp at h0
  · intro p hp h0; rcases List.mem_singleton.1 hp with rfl; simp at h0
  · intro p hp; rcases List.mem_singleton.1 hp with rfl; exact Nat.zero_le maxd
  · simp
  · intro q₀ rest heq p hp
    rcases List.mem_singleton.1 hp with rfl
    have hq₀ : q₀ = ⟨s, 0, none, none⟩ := by
      have : q₀ ∈ [(⟨s, 0, none, none⟩ : QItem)] := by rw [heq]; exact List.mem_cons_self _ _
      simpa using this
    subst hq₀
    simp
  · intro r hr; simp at hr
  · simp
  · intro w; simp
  · intro q₀ rest heq w m hreach hm
    have hq₀ : q₀ = ⟨s, 0, none, none⟩ := by
      have : q₀ ∈ [(⟨s, 0, none, none⟩ : QItem)] := by rw [heq]; simp
      simpa using this
    subst hq₀
    have hm0 : m = 0 := by simpa using hm
    subst hm0
    simp [reach_zero_eq hreach]
  · intro u du hdisj hnotin _ e he hall
    rcases hdisj with ⟨rfl, rfl⟩ | ⟨r, hr, _⟩
    · exact absurd (by simp : u ∈ [(⟨u, 0, none, none⟩ : QItem)].map (fun q => q.node)) hnotin
    · simp at hr
  · intro q₀ rest heq r hr
    simp at hr
  · intro p hp hpos
    rcases List.mem_singleton.1 hp with rfl
    simp at hpos
  · intro r hr
    simp at hr

/-- Claim **C1**: a BFS traversal never emits the start node, never emits the same
node id twice, and each emitted entry records the node's true (shortest)
filtered-graph hop distance, carrying the type and weight of the edge
through which it was first enqueued: an allowed adjacency record out of a
node one hop closer to the start, and precisely the *first* allowed record
reaching it when the emitted nodes are scanned in processing order (equal
hops: earlier-discovered parents first) and each parent's adjacency list in
insertion order. -/
theorem C1_bfs_first_discovery (adj : Adj) (allowed : Option (List String)) (s maxd : Nat) :
    ((bfs adj s maxd allowed).map (fun e => e.id)).Nodup ∧
    ∀ e ∈ bfs adj s maxd allowed,
      e.id ≠ s ∧ 0 < e.hop ∧ IsDist adj allowed s e.hop e.id ∧
      (∃ u ed, IsDist adj allowed s (e.hop - 1) u ∧ ed ∈ adjGet adj u ∧
        typeAllowed allowed ed.type = true ∧ ed.target = e.id ∧
        e.edge = some ed.type ∧ e.wt = some ed.weight) ∧
      (∃ u ed,
        discover adj allowed (s :: (bfs adj s maxd allowed).map (fun r => r.id)) e.id
          = some (u, ed) ∧
        e.edge = some ed.type ∧ e.wt = some ed.weight) := by
  by_cases hmem : adjMem adj s = true
  · have hb : bfs adj s maxd allowed =
        bfsLoop adj allowed maxd (bfsFuel adj) [⟨s, 0, none, none⟩] [s] [] := by
      unfold bfs
      rw [if_pos hmem]
    have h := bfsLoop_inv adj allowed s maxd (bfsFuel adj) _ _ _
      (bfsInv_init adj allowed s maxd)
    rw [hb]
    refine ⟨h.1, ?_⟩
    intro e he
    obtain ⟨h1, h2, h3, h4⟩ := h.2.1 e he
    exact ⟨h1, h2, h3, h4, h.2.2 e he⟩
  · have hb : bfs adj s maxd allowed = [] := by
      unfold bfs
      rw [if_neg hmem]
    rw [hb]
    simp

/-- Witness for C1 at a concrete input. -/
theorem C1_bfs_first_discovery_witness :
    ((bfs (buildAdj exampleEdges) 1 2 none).map (fun e => e.id)).Nodup ∧
    ((⟨2, 1, some "related_to", some 1⟩ : BfsEntry).id ≠ 1 ∧
      0 < (⟨2, 1, some "related_to", some 1⟩ : BfsEntry).hop ∧
      IsDist (buildAdj exampleEdges) none 1
        (⟨2, 1, some "related_to", some 1⟩ : BfsEntry).hop
        (⟨2, 1, some "related_to", some 1⟩ : BfsEntry).id ∧
      (∃ u ed, IsDist (buildAdj exampleEdges) none 1
          ((⟨2, 1, some "related_to", some 1⟩ : BfsEntry).hop - 1) u ∧
        ed ∈ adjGet (buildAdj exampleEdges) u ∧
        typeAllowed none ed.type = true ∧
        ed.target = (⟨2, 1, some "related_to", some 1⟩ : BfsEntry).id ∧
        (⟨2, 1, some "related_to", some 1⟩ : BfsEntry).edge = some ed.type ∧
        (⟨2, 1, some "related_to", some 1⟩ : BfsEntry).wt = some ed.weight) ∧
      (∃ u ed, discover (buildAdj exampleEdges) none
          (1 :: (bfs (buildAdj exampleEdges) 1 2 none).map (fun r => r.id))
          (⟨2, 1, some "related_to", some 1⟩ : BfsEntry).id = some (u, ed) ∧
        (⟨2, 1, some "related_to", some 1⟩ : BfsEntry).edge = some ed.type ∧
        (⟨2, 1, some "related_to", some 1⟩ : BfsEntry).wt = some ed.weight)) :=
  ⟨(C1_bfs_first_discovery (buildAdj exampleEdges) none 1 2).1,
    (C1_bfs_first_discovery (buildAdj exampleEdges) none 1 2).2
      ⟨2, 1, some "related_to", some 1⟩ (List.mem_cons_self _ _)⟩

/-! ## Vector layer: `search/vector_search.py`

Embedding vectors and similarity scores are modelled over `ℝ`
(`np.linalg.norm` is a square root, so the rationals do not suffice). -/

/-- Models `matrix @ vector` for one row: the dot product (`np.dot` semantics on
equal-length rows; `zipWith` mirrors elementwise multiply-then-sum). -/
def dotList (v w : List ℝ) : ℝ := (List.zipWith (fun a b => a * b) v w).sum

/-- Sum of squares of the entries. -/
def sumSq (v : List ℝ) : ℝ := (v.map (fun x => x ^ 2)).sum

/-- Models `np.linalg.norm`: the Euclidean norm. -/
noncomputable def normList (v : List ℝ) : ℝ := Real.sqrt (sumSq v)

/-- The guarded denominator of `cosine_vec_matrix`:
`np.where(denom == 0, 1e-9, denom)`. -/
noncomputable def cosDenom (row q : List ℝ) : ℝ :=
  if normList row * normList q = 0 then 1 / 1000000000 else normList row * normList q

/-- One row of `cosine_vec_matrix`: `dot(row, query) / denom` with the
epsilon-guarded denominator. -/
noncomputable def cosineRow (row q : List ℝ) : ℝ := dotList row q / cosDenom row q

/-- Models `cosine_vec_matrix(matrix, vector)`: the vector of cosine similarities
of `vector` against every row. -/
noncomputable def cosine_vec_matrix (matrix : List (List ℝ)) (vector : List ℝ) : List ℝ :=
  matrix.map (fun row => cosineRow row vector)

theorem sumSq_nonneg (v : List ℝ) : 0 ≤ sumSq v := by
  refine List.sum_nonneg ?_
  intro x hx
  obtain ⟨y, _, rfl⟩ := List.mem_map.1 hx
  exact sq_nonneg y

theorem normList_nonneg (v : List ℝ) : 0 ≤ normList v := Real.sqrt_nonneg _

theorem list_sum_nonneg_eq_zero : ∀ {l : List ℝ}, (∀ y ∈ l, 0 ≤ y) → l.sum = 0 →
    ∀ y ∈ l, y = 0 := by
  intro l
  induction l with
  | nil => intro _ _ y hy; simp at hy
  | cons a l' ih =>
    intro hnn hsum y hy
    have ha : 0 ≤ a := hnn a (List.mem_cons_self _ _)
    have hl' : 0 ≤ l'.sum := List.sum_nonneg (fun z hz => hnn z (List.mem_cons_of_mem _ hz))
    rw [List.sum_cons] at hsum
    have ha0 : a = 0 := by linarith
    have hs0 : l'.sum = 0 := by linarith
    rcases List.mem_cons.1 hy with rfl | hy
    · exact ha0
    · exact ih (fun z hz => hnn z (List.mem_cons_of_mem _ hz)) hs0 y hy

theorem normList_eq_zero_all_zero {v : List ℝ} (h : normList v = 0) : ∀ x ∈ v, x = 0 := by
  have hs : sumSq v = 0 := (Real.sqrt_eq_zero (sumSq_nonneg v)).1 h
  intro x hx
  have hnn : ∀ y ∈ v.map (fun x => x ^ 2), 0 ≤ y := by
    intro y hy
    obtain ⟨z, _, rfl⟩ := List.mem_map.1 hy
    exact sq_nonneg z
  have hterm : x ^ 2 = 0 :=
    list_sum_nonneg_eq_zero hnn hs (x ^ 2) (List.mem_map_of_mem _ hx)
  exact pow_eq_zero_iff (by norm_num) |>.1 hterm

theorem dotList_zero_right {v w : List ℝ} (h : ∀ x ∈ w, x = 0) : dotList v w = 0 := by
  induction v generalizing w with
  | nil => simp [dotList]
  | cons a v' ih =>
    match w with
    | [] => simp [dotList]
    | b :: w' =>
      have hb : b = 0 := h b (List.mem_cons_self _ _)
      have hrest := ih (w := w') (fun x hx => h x (List.mem_cons_of_mem _ hx))
      simp only [dotList, List.zipWith_cons_cons, List.sum_cons] at *
      rw [hb, hrest, mul_zero, add_zero]

theorem dotList_zero_left {v w : List ℝ} (h : ∀ x ∈ v, x = 0) : dotList v w = 0 := by
  induction v generalizing w with
  | nil => simp [dotList]
  | cons a v' ih =>
    match w with
    | [] => simp [dotList]
    | b :: w' =>
      have ha : a = 0 := h a (List.mem_cons_self _ _)
      have hrest := ih (w := w') (fun x hx => h x (List.mem_cons_of_mem _ hx))
      simp only [dotList, List.zipWith_cons_cons, List.sum_cons] at *
      rw [ha, hrest, zero_mul, add_zero]

/-- Cauchy–Schwarz for the truncating list dot product. -/
theorem dotList_sq_le (v w : List ℝ) : (dotList v w) ^ 2 ≤ sumSq v * sumSq w := by
  induction v generalizing w with
  | nil =>
    simp [dotList, sumSq]
  | cons x v' ih =>
    match w with
    | [] =>
      simp [dotList, sumSq]
    | y :: w' =>
      have ha : 0 ≤ sumSq v' := sumSq_nonneg v'
      have hb : 0 ≤ sumSq w' := sumSq_nonneg w'
      have hd : (dotList v' w') ^ 2 ≤ sumSq v' * sumSq w' := ih w'
      have hstep : (x * y + dotList v' w') ^ 2 ≤
          (x ^ 2 + sumSq v') * (y ^ 2 + sumSq w') := by
        set d := dotList v' w'
        set a := sumSq v'
        set b := sumSq w'
        rcases eq_or_lt_of_le ha with ha0 | hapos
        · have hd0 : d = 0 := by nlinarith [sq_nonneg d]
          rw [hd0]
          nlinarith [sq_nonneg x, sq_nonneg y, mul_nonneg (sq_nonneg x) hb]
        · have key : a * ((x * y + d) ^ 2) ≤ a * ((x ^ 2 + a) * (y ^ 2 + b)) := by
            nlinarith [sq_nonneg (a * y - x * d), mul_nonneg (sq_nonneg x) (sub_nonneg.2 hd),
              mul_nonneg ha (sub_nonneg.2 hd)]
          exact le_of_mul_le_mul_left key hapos
      simpa [dotList, sumSq] using hstep

theorem abs_dotList_le (v w : List ℝ) : |dotList v w| ≤ normList v * normList w := by
  have h := dotList_sq_le v w
  have h2 : Real.sqrt ((dotList v w) ^ 2) ≤ Real.sqrt (sumSq v * sumSq w) :=
    Real.sqrt_le_sqrt h
  rw [Real.sqrt_sq_eq_abs, Real.sqrt_mul (sumSq_nonneg v)] at h2
  exact h2

/-- Claim **C6**: the cosine computation floors a vanishing denominator to the
positive epsilon `1e-9`, so the used denominator is always strictly
positive (no division by zero, no NaN); the similarity against a zero-norm
vector is exactly `0`; and for two vectors of nonzero norm the similarity
lies in `[-1, 1]`. -/
theorem C6_cosine_epsilon_guard (row q : List ℝ)
    (hrow : normList row ≠ 0) (hq : normList q ≠ 0) :
    (∀ r' q' : List ℝ, 0 < cosDenom r' q') ∧
    (∀ r' q' : List ℝ, normList r' = 0 ∨ normList q' = 0 → cosineRow r' q' = 0) ∧
    (-1 ≤ cosineRow row q ∧ cosineRow row q ≤ 1) := by
  have hpos : ∀ r' q' : List ℝ, 0 < cosDenom r' q' := by
    intro r' q'
    unfold cosDenom
    split
    · norm_num
    · rename_i hne
      have hnn : 0 ≤ normList r' * normList q' :=
        mul_nonneg (normList_nonneg r') (normList_nonneg q')
      exact lt_of_le_of_ne hnn (Ne.symm hne)
  refine ⟨hpos, ?_, ?_⟩
  · intro r' q' hz
    unfold cosineRow
    rcases hz with hz | hz
    · rw [dotList_zero_left (normList_eq_zero_all_zero hz), zero_div]
    · rw [dotList_zero_right (normList_eq_zero_all_zero hz), zero_div]
  · have hden : cosDenom row q = normList row * normList q := by
      unfold cosDenom
      rw [if_neg (by
        intro hc
        rcases mul_eq_zero.1 hc with hc | hc
        · exact hrow hc
        · exact hq hc)]
    have hdpos : 0 < normList row * normList q := by
      rw [← hden]; exact hpos row q
    have habs : |cosineRow row q| ≤ 1 := by
      unfold cosineRow
      rw [hden, abs_div, abs_of_pos hdpos]
      exact div_le_one_of_le₀ (abs_dotList_le row q) (le_of_lt hdpos)
    exact ⟨neg_le_of_abs_le habs, le_of_abs_le habs⟩

/-- Witness for C6 at a concrete input. -/
theorem C6_cosine_epsilon_guard_witness :
    (∀ r' q' : List ℝ, 0 < cosDenom r' q') ∧
    (∀ r' q' : List ℝ, normList r' = 0 ∨ normList q' = 0 → cosineRow r' q' = 0) ∧
    (-1 ≤ cosineRow [(1 : ℝ)] [(1 : ℝ)] ∧ cosineRow [(1 : ℝ)] [(1 : ℝ)] ≤ 1) :=
  C6_cosine_epsilon_guard [(1 : ℝ)] [(1 : ℝ)]
    (by simp [normList, sumSq])
    (by simp [normList, sumSq])

/-! ### `search_vector` and claim C7 -/

/-- One record of `nodes.json` (fields used by the search path). -/
structure Node where
  id : Nat
  name : String
  text : String
  metadata : List (String × String)
  embedding : List ℝ
deriving Inhabited

/-- One result record of `search_vector`:
`{"id": .., "name": .., "vector_score": ..}`. -/
structure VecResult where
  id : Nat
  name : String
  vector_score : ℝ
deriving Inhabited

/-- The candidate pool after the optional metadata filter:
`[n for n in NODES if n.get("metadata", {}).get(key) == value]` when a
filter `(key, value)` is supplied, all nodes otherwise. -/
def candidatePool (nodes : List Node) (mf : Option (String × String)) : List Node :=
  match mf with
  | none => nodes
  | some (key, value) => nodes.filter (fun n => List.lookup key n.metadata == some value)

/-- Models `np.argsort(sims)`: the indices of `sims` sorted by ascending score
(modelled as a stable sort; `np.argsort` is deterministic for a fixed
input). -/
noncomputable def argsortAsc (sims : List ℝ) : List Nat :=
  List.insertionSort (fun i j => sims.getD i 0 ≤ sims.getD j 0) (List.range sims.length)

/-- Steps 3–4 of `search_vector` on an already-filtered pool: compute the
similarity of every candidate row, clamp `top_k` to the pool size, take the
`top_k` indices by descending similarity (`np.argsort(sims)[::-1][:top_k]`)
and build the result records. -/
noncomputable def rankNodes (filtered_nodes : List Node) (q_embed : List ℝ)
    (top_k : Nat) : List VecResult :=
  let filtered_embs := filtered_nodes.map (fun n => n.embedding)
  let sims := cosine_vec_matrix filtered_embs q_embed
  let k := min top_k filtered_nodes.length
  let top_indices := ((argsortAsc sims).reverse).take k
  top_indices.map (fun idx =>
    ⟨(filtered_nodes.getD idx default).id, (filtered_nodes.getD idx default).name,
      sims.getD idx 0⟩)

/-- Models `search_vector(query_text, top_k, metadata_filter)` with the embedding
oracle's output for the query supplied as `q_embed`: empty corpus and
empty filtered pool short-circuit to `[]`, otherwise the pool is ranked. -/
noncomputable def search_vector (nodes : List Node) (q_embed : List ℝ) (top_k : Nat)
    (metadata_filter : Option (String × String)) : List VecResult :=
  if nodes.isEmpty then []
  else
    let filtered_nodes := candidatePool nodes metadata_filter
    if metadata_filter.isSome && filtered_nodes.isEmpty then []
    else rankNodes filtered_nodes q_embed top_k

theorem argsortAsc_perm (sims : List ℝ) : (argsortAsc sims).Perm (List.range sims.length) :=
  List.perm_insertionSort _ _

theorem argsortAsc_length (sims : List ℝ) : (argsortAsc sims).length = sims.length := by
  rw [(argsortAsc_perm sims).length_eq, List.length_range]

theorem argsortAsc_sorted (sims : List ℝ) :
    (argsortAsc sims).Sorted (fun i j => sims.getD i 0 ≤ sims.getD j 0) := by
  haveI : IsTotal Nat (fun i j => sims.getD i 0 ≤ sims.getD j 0) :=
    ⟨fun i j => le_total _ _⟩
  haveI : IsTrans Nat (fun i j => sims.getD i 0 ≤ sims.getD j 0) :=
    ⟨fun a b c hab hbc => le_trans hab hbc⟩
  exact List.sorted_insertionSort _ _

theorem cosine_vec_matrix_length (m : List (List ℝ)) (v : List ℝ) :
    (cosine_vec_matrix m v).length = m.length := List.length_map _ _

theorem map_getD_range {α β : Type} [Inhabited α] (l : List α) (f : α → β) :
    (List.range l.length).map (fun i => f (l.getD i default)) = l.map f := by
  induction l with
  | nil => simp
  | cons a l' ih =>
    rw [List.length_cons, List.range_succ_eq_map]
    simp only [List.map_cons, List.getD_cons_zero, List.map_map]
    congr 1

theorem rankNodes_length (fn : List Node) (q : List ℝ) (k : Nat) :
    (rankNodes fn q k).length = min k fn.length := by
  unfold rankNodes
  simp [List.length_take, argsortAsc_length, cosine_vec_matrix_length]

theorem rankNodes_sorted (fn : List Node) (q : List ℝ) (k : Nat) :
    ((rankNodes fn q k).map (fun r => r.vector_score)).Sorted (fun a b => b ≤ a) := by
  unfold rankNodes
  set sims := cosine_vec_matrix (fn.map (fun n => n.embedding)) q with hsims
  rw [List.map_map]
  have hrev : ((argsortAsc sims).reverse).Sorted (fun i j => sims.getD j 0 ≤ sims.getD i 0) :=
    List.pairwise_reverse.2 (argsortAsc_sorted sims)
  have htake : (((argsortAsc sims).reverse).take (min k fn.length)).Sorted
      (fun i j => sims.getD j 0 ≤ sims.getD i 0) :=
    hrev.sublist (List.take_sublist _ _)
  refine List.Pairwise.map _ ?_ htake
  intro i j hij
  exact hij

theorem rankNodes_perm (fn : List Node) (q : List ℝ) (k : Nat) (h : fn.length ≤ k) :
    ((rankNodes fn q k).map (fun r => r.id)).Perm (fn.map (fun n => n.id)) := by
  unfold rankNodes
  set sims := cosine_vec_matrix (fn.map (fun n => n.embedding)) q with hsims
  have hlen : sims.length = fn.length := by
    rw [hsims, cosine_vec_matrix_length, List.length_map]
  have hmin : min k fn.length = fn.length := Nat.min_eq_right h
  have htake : ((argsortAsc sims).reverse).take (min k fn.length) =
      (argsortAsc sims).reverse := by
    refine List.take_of_length_le ?_
    rw [List.length_reverse, argsortAsc_length, hlen, hmin]
  rw [List.map_map, htake]
  have hperm : ((argsortAsc sims).reverse).Perm (List.range fn.length) :=
    ((argsortAsc sims).reverse_perm).trans (hlen ▸ argsortAsc_perm sims)
  refine ((hperm.map _).trans ?_)
  rw [show ((fun r : VecResult => r.id) ∘ fun idx =>
      (⟨(fn.getD idx default).id, (fn.getD idx default).name, sims.getD idx 0⟩ : VecResult)) =
      (fun idx => (fn.getD idx default).id) from rfl]
  rw [map_getD_range fn (fun n => n.id)]

/-- Claim **C7**: vector search returns exactly `min(top_k, candidate_count)`
results, sorted by descending similarity score; a `top_k` larger than the
candidate pool is not an error and returns the entire pool (as a
permutation, here stated on ids), still sorted descending. -/
theorem C7_vector_topk (nodes : List Node) (q : List ℝ) (k : Nat)
    (mf : Option (String × String)) :
    (search_vector nodes q k mf).length = min k (candidatePool nodes mf).length ∧
    ((search_vector nodes q k mf).map (fun r => r.vector_score)).Sorted (fun a b => b ≤ a) ∧
    ((candidatePool nodes mf).length ≤ k →
      ((search_vector nodes q k mf).map (fun r => r.id)).Perm
        ((candidatePool nodes mf).map (fun n => n.id))) := by
  unfold search_vector
  by_cases hempty : nodes.isEmpty
  · have hpool : candidatePool nodes mf = [] := by
      rcases mf with _ | ⟨key, value⟩
      · simpa [candidatePool] using (List.isEmpty_iff).1 hempty
      · simp [candidatePool, (List.isEmpty_iff).1 hempty]
    simp [hempty, hpool]
  · simp only [hempty, Bool.false_eq_true, if_false]
    by_cases hfe : mf.isSome && (candidatePool nodes mf).isEmpty
    · have hpool : candidatePool nodes mf = [] :=
        (List.isEmpty_iff).1 (Bool.and_elim_right hfe)
      have hsome : mf.isSome = true := Bool.and_elim_left hfe
      simp [hsome, hpool]
    · simp only [hfe, Bool.false_eq_true, if_false]
      exact ⟨rankNodes_length _ _ _, rankNodes_sorted _ _ _,
        fun h => rankNodes_perm _ _ _ h⟩

/-- Witness for C7 at a concrete input. -/
theorem C7_vector_topk_witness :
    ((search_vector [⟨1, "a", "t", [], [1]⟩] [(1 : ℝ)] 5 none).map (fun r => r.id)).Perm
      ((candidatePool [⟨1, "a", "t", [], [1]⟩] none).map (fun n => n.id)) :=
  (C7_vector_topk [⟨1, "a", "t", [], [1]⟩] [(1 : ℝ)] 5 none).2.2 (by simp [candidatePool])

/-! ## Fusion layer: `search/hybrid_search.py` -/

/-- One result record of `hybrid_search`.  `name`/`text` are `None` when no
node with the id exists; `hop` is `None` when the candidate was not reached
by the traversal. -/
structure HybridResult where
  id : Nat
  name : Option String
  text : Option String
  vector_score : ℝ
  graph_score : ℝ
  final_score : ℝ
  hop : Option Nat

/-- Python dict assignment `d[k] = v`: replace the value in place if the key
exists, otherwise append the new key at the end (dicts preserve insertion
order). -/
def dictInsert (d : List (Nat × ℝ)) (k : Nat) (v : ℝ) : List (Nat × ℝ) :=
  if d.any (fun p => p.1 == k) then d.map (fun p => if p.1 = k then (k, v) else p)
  else d ++ [(k, v)]

/-- The dict comprehension `{r["id"]: r["vector_score"] for r in vector_results}`. -/
def dictOfPairs (ps : List (Nat × ℝ)) : List (Nat × ℝ) :=
  ps.foldl (fun d p => dictInsert d p.1 p.2) []

/-- The record built for one candidate inside `hybrid_search`'s merge loop. -/
noncomputable def mergeRecord (nodes : List Node) (visited : List BfsEntry) (alpha : ℝ)
    (p : Nat × ℝ) : HybridResult :=
  { id := p.1
    name := (nodes.find? (fun n => n.id == p.1)).map (fun n => n.name)
    text := (nodes.find? (fun n => n.id == p.1)).map (fun n => n.text)
    vector_score := p.2
    graph_score := ((graph_closeness p.1 visited : ℚ) : ℝ)
    final_score := alpha * p.2 + (1 - alpha) * ((graph_closeness p.1 visited : ℚ) : ℝ)
    hop := (visited.find? (fun item => item.id == p.1)).map (fun item => item.hop) }

/-- Models `hybrid_search(query_text, top_k, focus_id, bfs_depth, alpha)` with the
query embedding supplied by the caller: vector search, anchor selection
(`focus_id` or the best vector hit), unfiltered BFS from the anchor,
weighted blend `alpha * vector + (1 - alpha) * closeness`, stable sort by
descending `final_score`, first `top_k`. -/
noncomputable def hybrid_search (nodes : List Node) (adj : Adj) (q_embed : List ℝ)
    (top_k : Nat) (focus_id : Option Nat) (bfs_depth : Nat) (alpha : ℝ) :
    List HybridResult :=
  let vector_results := search_vector nodes q_embed top_k none
  if vector_results.isEmpty then []
  else
    let vec_scores := dictOfPairs (vector_results.map (fun r => (r.id, r.vector_score)))
    let focus := focus_id.getD (vector_results.headI).id
    let visited := bfs adj focus bfs_depth none
    let merged_results := vec_scores.map (mergeRecord nodes visited alpha)
    (List.insertionSort (fun x y => y.final_score ≤ x.final_score) merged_results).take top_k

/-- With pairwise-distinct keys the dict comprehension keeps the pair list
unchanged. -/
theorem dictOfPairs_eq_self (ps : List (Nat × ℝ)) (h : (ps.map (fun p => p.1)).Nodup) :
    dictOfPairs ps = ps := by
  suffices haux : ∀ (ps : List (Nat × ℝ)) (d : List (Nat × ℝ)),
      ((d.map (fun p => p.1)) ++ (ps.map (fun p => p.1))).Nodup →
      ps.foldl (fun d p => dictInsert d p.1 p.2) d = d ++ ps by
    have := haux ps [] (by simpa using h)
    simpa using this
  intro ps
  induction ps with
  | nil => intro d _; simp
  | cons p ps' ih =>
    intro d hnd
    rw [List.foldl_cons]
    have hnotin : ¬d.any (fun q => q.1 == p.1) = true := by
      intro hc
      obtain ⟨q, hq, hqe⟩ := List.any_eq_true.1 hc
      have hq1 : q.1 = p.1 := by simpa using hqe
      have hdisj := (List.nodup_append.1 hnd).2.2
      exact hdisj (List.mem_map_of_mem _ hq) (by rw [hq1]; simp)
    rw [show dictInsert d p.1 p.2 = d ++ [(p.1, p.2)] from by
      unfold dictInsert
      rw [if_neg hnotin]]
    have hres := ih (d ++ [(p.1, p.2)]) (by
      simp only [List.map_append, List.map_cons, List.map_nil] at hnd ⊢
      have : (d.map (fun p => p.1) ++ [p.1]) ++ ps'.map (fun p => p.1) =
          d.map (fun p => p.1) ++ p.1 :: ps'.map (fun p => p.1) := by
        simp
      rw [this]
      exact hnd)
    rw [hres]
    simp

theorem rankNodes_ids_nodup (fn : List Node) (q : List ℝ) (k : Nat)
    (h : (fn.map (fun n => n.id)).Nodup) :
    ((rankNodes fn q k).map (fun r => r.id)).Nodup := by
  unfold rankNodes
  set sims := cosine_vec_matrix (fn.map (fun n => n.embedding)) q with hsims
  have hlen : sims.length = fn.length := by
    rw [hsims, cosine_vec_matrix_length, List.length_map]
  rw [List.map_map]
  have hperm : (((argsortAsc sims).reverse).map (fun i => (fn.getD i default).id)).Perm
      (fn.map (fun n => n.id)) := by
    have hp : ((argsortAsc sims).reverse).Perm (List.range fn.length) :=
      ((argsortAsc sims).reverse_perm).trans (hlen ▸ argsortAsc_perm sims)
    exact (hp.map _).trans (by rw [map_getD_range fn (fun n => n.id)])
  have hrevnd : (((argsortAsc sims).reverse).map (fun i => (fn.getD i default).id)).Nodup :=
    (hperm.symm).nodup h
  refine List.Nodup.sublist ?_ hrevnd
  rw [show ((fun r : VecResult => r.id) ∘ fun idx =>
      (⟨(fn.getD idx default).id, (fn.getD idx default).name, sims.getD idx 0⟩ : VecResult)) =
      (fun i => (fn.getD i default).id) from rfl]
  exact (List.take_sublist _ _).map _

theorem search_vector_none_eq (nodes : List Node) (q : List ℝ) (k : Nat)
    (h : ¬nodes.isEmpty = true) :
    search_vector nodes q k none = rankNodes nodes q k := by
  unfold search_vector
  rw [if_neg h]
  simp [candidatePool]

theorem search_vector_ids_nodup (nodes : List Node) (q : List ℝ) (k : Nat)
    (h : (nodes.map (fun n => n.id)).Nodup) :
    ((search_vector nodes q k none).map (fun r => r.id)).Nodup := by
  by_cases he : nodes.isEmpty
  · unfold search_vector
    rw [if_pos he]
    simp
  · rw [search_vector_none_eq nodes q k he]
    exact rankNodes_ids_nodup nodes q k h

theorem search_vector_length_le (nodes : List Node) (q : List ℝ) (k : Nat) :
    (search_vector nodes q k none).length ≤ k := by
  by_cases he : nodes.isEmpty
  · unfold search_vector
    rw [if_pos he]
    exact Nat.zero_le k
  · rw [search_vector_none_eq nodes q k he, rankNodes_length]
    exact Nat.min_le_left _ _

theorem search_vector_scores_sorted (nodes : List Node) (q : List ℝ) (k : Nat) :
    ((search_vector nodes q k none).map (fun r => r.vector_score)).Sorted
      (fun a b => b ≤ a) := by
  by_cases he : nodes.isEmpty
  · unfold search_vector
    rw [if_pos he]
    simp
  · rw [search_vector_none_eq nodes q k he]
    exact rankNodes_sorted nodes q k

/-- The specification's description of the `alpha = 0` ranking, written from
the spec's words (§8 *Fusion determinism*): the pure graph-closeness ranking
restricted to the vector candidate set — a stable descending sort of the
vector results by graph closeness (ties keep the prior vector order),
truncated to `top_k` and projected to ids. -/
noncomputable def closenessRanking (nodes : List Node) (adj : Adj) (q_embed : List ℝ)
    (top_k : Nat) (focus_id : Option Nat) (bfs_depth : Nat) : List Nat :=
  let vector_results := search_vector nodes q_embed top_k none
  if vector_results.isEmpty then []
  else
    let focus := focus_id.getD (vector_results.headI).id
    let visited := bfs adj focus bfs_depth none
    ((List.insertionSort (fun x y : VecResult =>
        ((graph_closeness y.id visited : ℚ) : ℝ) ≤ ((graph_closeness x.id visited : ℚ) : ℝ))
      vector_results).take top_k).map (fun r => r.id)

/-- Claim **C8**: with `alpha = 1.0` the hybrid ranking is exactly the plain
vector-search ranking; with `alpha = 0.0` it is exactly the graph-closeness
ranking of the vector candidate set, ties broken by the stable prior
(vector) order. -/
theorem C8_fusion_alpha_extremes (nodes : List Node) (adj : Adj) (q : List ℝ)
    (k d : Nat) (focus : Option Nat)
    (hnodup : (nodes.map (fun n => n.id)).Nodup) :
    (hybrid_search nodes adj q k focus d 1).map (fun r => r.id) =
      (search_vector nodes q k none).map (fun r => r.id) ∧
    (hybrid_search nodes adj q k focus d 0).map (fun r => r.id) =
      closenessRanking nodes adj q k focus d := by
  have hvrnodup : ((search_vector nodes q k none).map (fun r => r.id)).Nodup :=
    search_vector_ids_nodup nodes q k hnodup
  have hpairs_nodup : (((search_vector nodes q k none).map
      (fun r => (r.id, r.vector_score))).map (fun p => p.1)).Nodup := by
    rw [List.map_map]
    exact hvrnodup
  have hdict : dictOfPairs ((search_vector nodes q k none).map
      (fun r => (r.id, r.vector_score))) =
      (search_vector nodes q k none).map (fun r => (r.id, r.vector_score)) :=
    dictOfPairs_eq_self _ hpairs_nodup
  have hlen_le : (search_vector nodes q k none).length ≤ k :=
    search_vector_length_le nodes q k
  constructor
  · -- alpha = 1: the blended key equals the vector score
    unfold hybrid_search
    by_cases hemp : (search_vector nodes q k none).isEmpty
    · simp only [hemp, if_true]
      rw [List.isEmpty_iff.1 hemp]
      simp
    · simp only [hemp, Bool.false_eq_true, if_false, hdict, List.map_map]
      set visited := bfs adj
        ((focus).getD ((search_vector nodes q k none).headI).id) d none with hvis
      have hfinal : ∀ r : VecResult,
          (mergeRecord nodes visited 1 (r.id, r.vector_score)).final_score =
            r.vector_score := by
        intro r
        simp [mergeRecord]
      have hsortedm : ((search_vector nodes q k none).map
          (mergeRecord nodes visited 1 ∘ fun r => (r.id, r.vector_score))).Sorted
          (fun x y => y.final_score ≤ x.final_score) := by
        refine List.pairwise_map.2 ?_
        have hvs := search_vector_scores_sorted nodes q k
        have hvs' := List.pairwise_map.1 hvs
        refine List.Pairwise.imp ?_ hvs'
        intro a b hab
        show (mergeRecord nodes visited 1 (b.id, b.vector_score)).final_score ≤
          (mergeRecord nodes visited 1 (a.id, a.vector_score)).final_score
        rw [hfinal a, hfinal b]
        exact hab
      rw [List.Sorted.insertionSort_eq hsortedm]
      rw [List.take_of_length_le (by
        rw [List.length_map]
        exact hlen_le)]
      rw [List.map_map]
      rfl
  · -- alpha = 0: the blended key equals the graph closeness
    unfold hybrid_search closenessRanking
    by_cases hemp : (search_vector nodes q k none).isEmpty
    · simp [hemp]
    · simp only [hemp, Bool.false_eq_true, if_false, hdict, List.map_map]
      set vr := search_vector nodes q k none with hvr
      set visited := bfs adj ((focus).getD (vr.headI).id) d none with hvis
      have hcomm : (List.insertionSort (fun x y : VecResult =>
            ((graph_closeness y.id visited : ℚ) : ℝ) ≤
              ((graph_closeness x.id visited : ℚ) : ℝ)) vr).map
            (mergeRecord nodes visited 0 ∘ fun r => (r.id, r.vector_score)) =
          List.insertionSort (fun x y : HybridResult => y.final_score ≤ x.final_score)
            (vr.map (mergeRecord nodes visited 0 ∘ fun r => (r.id, r.vector_score))) := by
        refine List.map_insertionSort _ _ _ _ ?_
        intro a _ b _
        show ((graph_closeness b.id visited : ℚ) : ℝ) ≤
            ((graph_closeness a.id visited : ℚ) : ℝ) ↔
          (mergeRecord nodes visited 0 (b.id, b.vector_score)).final_score ≤
            (mergeRecord nodes visited 0 (a.id, a.vector_score)).final_score
        have hf : ∀ r : VecResult,
            (mergeRecord nodes visited 0 (r.id, r.vector_score)).final_score =
              ((graph_closeness r.id visited : ℚ) : ℝ) := by
          intro r
          simp [mergeRecord]
        rw [hf a, hf b]
      rw [← hcomm, ← List.map_take, List.map_map]
      rfl

/-- Witness for C8 at a concrete input. -/
theorem C8_fusion_alpha_extremes_witness :
    (hybrid_search [⟨1, "a", "t", [], [1]⟩] (buildAdj exampleEdges) [(1 : ℝ)] 5 none 2 1).map
        (fun r => r.id) =
      (search_vector [⟨1, "a", "t", [], [1]⟩] [(1 : ℝ)] 5 none).map (fun r => r.id) ∧
    (hybrid_search [⟨1, "a", "t", [], [1]⟩] (buildAdj exampleEdges) [(1 : ℝ)] 5 none 2 0).map
        (fun r => r.id) =
      closenessRanking [⟨1, "a", "t", [], [1]⟩] (buildAdj exampleEdges) [(1 : ℝ)] 5 none 2 :=
  C8_fusion_alpha_extremes [⟨1, "a", "t", [], [1]⟩] (buildAdj exampleEdges) [(1 : ℝ)]
    5 2 none (by simp)

/-! ### Claim C10: unknown focus node -/

theorem bfs_start_not_in_adj (adj : Adj) (s maxd : Nat) (allowed : Option (List String))
    (h : adjMem adj s = false) : bfs adj s maxd allowed = [] := by
  unfold bfs
  rw [h]
  simp

/-- Claim **C10**: a `focus_id` with no adjacency entry is harmless — `bfs`
soft-fails to `[]`, so `hybrid_search` returns the vector candidate set
(as ids, up to ranking) with `graph_score = 0.0`, `hop = None` and
`final_score = alpha * vector_score` for every candidate. -/
theorem C10_unknown_focus_harmless (nodes : List Node) (adj : Adj) (q : List ℝ)
    (k d : Nat) (alpha : ℝ) (focus : Nat)
    (hnodup : (nodes.map (fun n => n.id)).Nodup)
    (hfocus : adjMem adj focus = false)
    (hne : search_vector nodes q k none ≠ []) :
    ((hybrid_search nodes adj q k (some focus) d alpha).map (fun r => r.id)).Perm
      ((search_vector nodes q k none).map (fun r => r.id)) ∧
    ∀ r ∈ hybrid_search nodes adj q k (some focus) d alpha,
      r.graph_score = 0 ∧ r.hop = none ∧ r.final_score = alpha * r.vector_score := by
  have hemp : ¬(search_vector nodes q k none).isEmpty = true := by
    intro hc
    exact hne (List.isEmpty_iff.1 hc)
  have hdict := dictOfPairs_eq_self
    ((search_vector nodes q k none).map (fun r => (r.id, r.vector_score)))
    (by
      rw [List.map_map]
      exact search_vector_ids_nodup nodes q k hnodup)
  have hbfs : bfs adj focus d none = [] := bfs_start_not_in_adj adj focus d none hfocus
  have hlen_le : (search_vector nodes q k none).length ≤ k :=
    search_vector_length_le nodes q k
  have hhyb : hybrid_search nodes adj q k (some focus) d alpha =
      (List.insertionSort (fun x y : HybridResult => y.final_score ≤ x.final_score)
        ((search_vector nodes q k none).map
          (mergeRecord nodes [] alpha ∘ fun r => (r.id, r.vector_score)))).take k := by
    unfold hybrid_search
    simp only [hemp, Bool.false_eq_true, if_false, hdict, Option.getD_some, hbfs,
      List.map_map]
  rw [hhyb]
  have htake : (List.insertionSort (fun x y : HybridResult => y.final_score ≤ x.final_score)
      ((search_vector nodes q k none).map
        (mergeRecord nodes [] alpha ∘ fun r => (r.id, r.vector_score)))).take k =
      List.insertionSort (fun x y : HybridResult => y.final_score ≤ x.final_score)
        ((search_vector nodes q k none).map
          (mergeRecord nodes [] alpha ∘ fun r => (r.id, r.vector_score))) := by
    refine List.take_of_length_le ?_
    rw [List.length_insertionSort, List.length_map]
    exact hlen_le
  rw [htake]
  constructor
  · refine ((List.perm_insertionSort _ _).map _).trans ?_
    rw [List.map_map]
    exact List.Perm.refl _
  · intro r hr
    rw [List.mem_insertionSort] at hr
    obtain ⟨v, _, rfl⟩ := List.mem_map.1 hr
    refine ⟨?_, rfl, ?_⟩
    · show ((graph_closeness v.id [] : ℚ) : ℝ) = 0
      simp [graph_closeness]
    · show alpha * v.vector_score + (1 - alpha) * ((graph_closeness v.id [] : ℚ) : ℝ) =
        alpha * v.vector_score
      simp [graph_closeness]

/-- Witness for C10 at a concrete input. -/
theorem C10_unknown_focus_harmless_witness :
    ((hybrid_search [⟨1, "a", "t", [], [1]⟩] (buildAdj exampleEdges) [(1 : ℝ)] 5
        (some 99) 2 (1/2)).map (fun r => r.id)).Perm
      ((search_vector [⟨1, "a", "t", [], [1]⟩] [(1 : ℝ)] 5 none).map (fun r => r.id)) ∧
    ∀ r ∈ hybrid_search [⟨1, "a", "t", [], [1]⟩] (buildAdj exampleEdges) [(1 : ℝ)] 5
        (some 99) 2 (1/2),
      r.graph_score = 0 ∧ r.hop = none ∧ r.final_score = (1/2) * r.vector_score :=
  C10_unknown_focus_harmless [⟨1, "a", "t", [], [1]⟩] (buildAdj exampleEdges) [(1 : ℝ)]
    5 2 (1/2) 99 (by simp) (by decide)
    (by
      refine List.ne_nil_of_length_pos ?_
      rw [search_vector_none_eq _ _ _ (by simp), rankNodes_length]
      simp)

/-! ### Claim C9: structural errors at index construction -/

/-- Whether all embeddings share one dimension (`np.array` of the embedding
rows raises on a ragged input). -/
def sameDims (nodes : List Node) : Bool :=
  match nodes with
  | [] => true
  | n :: rest => rest.all (fun m => m.embedding.length == n.embedding.length)

/-- The module initialization of `vector_search.py`: `NODES`, `EMB_ARRAY`
and `NODE_IDS` are built inside a `try`; on any failure — in particular the
`np.array` error on an embedding-dimension mismatch — the `except` clause
prints and replaces all three with empties, so construction always
"succeeds". -/
def embInit (nodes : List Node) : List Node × List (List ℝ) × List Nat :=
  if sameDims nodes then (nodes, nodes.map (fun n => n.embedding), nodes.map (fun n => n.id))
  else ([], [], [])

/-- Claim **C9 counterexample**: construction with structural errors succeeds
silently.  A two-node corpus with embedding dimensions 1 and 2 yields the
empty index (`NODES = EMB_ARRAY = NODE_IDS = []`) instead of surfacing an
error, and an edge whose endpoint `99` exists in no node list is inserted
into the adjacency without any check. -/
theorem C9_counterexample :
    embInit [⟨1, "a", "t", [], [1]⟩, ⟨2, "b", "t", [], [1, 0]⟩] = ([], [], []) ∧
    adjGet (buildAdj [⟨1, 99, "related_to", 1⟩]) 99 = [⟨1, "related_to", 1⟩] :=
  ⟨rfl, rfl⟩

/-- Claim **C9 (amended)**: structural errors at index construction are absorbed,
not surfaced — an embedding-dimension mismatch makes construction fall back
to an *empty* index, and an edge referencing a nonexistent endpoint is
silently inserted into the adjacency (no endpoint check exists). -/
theorem C9_construction_masks_errors :
    (∀ nodes : List Node, sameDims nodes = false → embInit nodes = ([], [], [])) ∧
    (∀ edges : List Edge, ∀ e ∈ edges,
      (⟨e.target, e.type, e.weight⟩ : AdjEntry) ∈ adjGet (buildAdj edges) e.source) := by
  constructor
  · intro nodes h
    simp [embInit, h]
  · intro edges e he
    rw [adjGet_buildAdj]
    simp only [incidentEntries, List.mem_flatten, List.mem_map]
    exact ⟨_, ⟨e, he, rfl⟩, by simp⟩

/-- Witness for the amended C9 at a concrete input. -/
theorem C9_construction_masks_errors_witness :
    embInit [⟨1, "a", "t", [], [1]⟩, ⟨2, "b", "t", [], [1, 0]⟩] = ([], [], []) ∧
    (⟨99, "related_to", 1⟩ : AdjEntry) ∈ adjGet (buildAdj [⟨1, 99, "related_to", 1⟩]) 1 :=
  ⟨C9_construction_masks_errors.1 [⟨1, "a", "t", [], [1]⟩, ⟨2, "b", "t", [], [1, 0]⟩] rfl,
    C9_construction_masks_errors.2 [⟨1, 99, "related_to", 1⟩] ⟨1, 99, "related_to", 1⟩
      (List.mem_cons_self _ _)⟩

end HybridRetrieval
